import Mathlib

/-!
Verification of the resource-index and dependency-closure resolver
(`rospack.py` of the rospkg repository) against its specification.

Python strings are embedded as `List Char`; Python dicts used as caches are
embedded as functions into `Option`; the stateful, memoizing methods of
`ManifestManager` are embedded as explicitly state-passing functions with a
fuel parameter bounding the recursion depth.
-/

namespace Rospkg

/-- A Python string, embedded as its list of characters. -/
abbrev Str := List Char

/-- Python `s.update(t)` on a set `s` represented as a duplicate-free list:
fold the elements of `t` into `s`, appending each element not yet present. -/
def supd {α : Type} [DecidableEq α] (s t : List α) : List α :=
  t.foldl (fun acc x => if x ∈ acc then acc else acc ++ [x]) s

theorem mem_supd {α : Type} [DecidableEq α] (s t : List α) (x : α) :
    x ∈ supd s t ↔ x ∈ s ∨ x ∈ t := by
  induction t generalizing s with
  | nil => simp [supd]
  | cons y ys ih =>
    simp only [supd, List.foldl_cons] at *
    by_cases hy : y ∈ s
    · rw [if_pos hy, ih]
      constructor
      · rintro (h | h)
        · exact Or.inl h
        · exact Or.inr (List.mem_cons_of_mem _ h)
      · rintro (h | h)
        · exact Or.inl h
        · rcases List.mem_cons.1 h with rfl | h
          · exact Or.inl hy
          · exact Or.inr h
    · rw [if_neg hy, ih]
      simp only [List.mem_append, List.mem_singleton, List.mem_cons]
      tauto

/-- The per-instance depends cache `self._depends_cache`: resource name to the
currently stored list (a completed closure, or the in-progress placeholder). -/
abbrev DCache (α : Type) := α → Option (List α)

/-- The empty cache of a freshly constructed instance. -/
def emptyDC {α : Type} : DCache α := fun _ => none

/-- Current contents of a cache entry, defaulting to the empty set
(used for the in-progress entry of the frame that owns it). -/
def getE {α : Type} (c : DCache α) (x : α) : List α := (c x).getD []

/-- Model of `ManifestManager.get_depends(name, implicit=False)`: the dependency names
listed in `name`'s manifest (`[d.name for d in m.depends]`).  Manifests are
external collaborators; `mf` maps each resource name to that list. -/
def getDependsDirect {α : Type} (mf : α → List α) (name : α) : List α := mf name

/-- Model of `ManifestManager.get_depends(name, implicit=True)`: memoized recursive
dependency closure.  The Python method mutates `self._depends_cache`; here the
cache is threaded explicitly.  A cache hit returns the stored entry.  Otherwise
an empty placeholder is stored for `name` (the `assign key before recursive
call` step), then for each direct dependency `p`, the recursive result is
unioned into `name`'s own entry (`s.update(self.get_depends(p, implicit))` on
the live set), then the direct names themselves are unioned in and the final
value stored.  `fuel` bounds the recursion depth; the Python recursion has no
such bound but terminates because the placeholder is registered first. -/
def getDepends {α : Type} [DecidableEq α] :
    Nat → (α → List α) → α → DCache α → Option (List α × DCache α)
  | 0, _, _, _ => none
  | Nat.succ fuel, mf, name, cache =>
    match cache name with
    | some v => some (v, cache)
    | none =>
      let names := mf name
      let cache1 := Function.update cache name (some ([] : List α))
      match names.foldlM
          (fun c p =>
            match getDepends fuel mf p c with
            | none => none
            | some rc =>
              some (Function.update rc.2 name (some (supd (getE rc.2 name) rc.1))))
          cache1 with
      | none => none
      | some cache2 =>
        let s := supd (getE cache2 name) names
        some (s, Function.update cache2 name (some s))

/-- Generic invariant-preservation for the `Option`-valued left fold used to
model the `for p in names:` loop of `get_depends`. -/
theorem foldlM_option_invariant {σ β : Type} (f : σ → β → Option σ) (P : σ → Prop)
    (hf : ∀ c p c', P c → f c p = some c' → P c') :
    ∀ (l : List β) (c c' : σ), P c → List.foldlM f c l = some c' → P c' := by
  intro l
  induction l with
  | nil =>
    intro c c' hP h
    simp only [List.foldlM_nil, pure, Option.some.injEq] at h
    exact h ▸ hP
  | cons p ps ih =>
    intro c c' hP h
    rw [List.foldlM_cons] at h
    cases hf1 : f c p with
    | none => rw [hf1] at h; exact absurd h (by simp)
    | some c2 =>
      rw [hf1] at h
      simp only [Option.bind_eq_bind, Option.some_bind] at h
      exact ih c2 c' (hf c p c2 hP hf1) h

/-- Generic success-with-invariant for the same fold. -/
theorem foldlM_option_isSome {σ β : Type} (f : σ → β → Option σ) (P : σ → Prop)
    (hf : ∀ c p, P c → ∃ c', f c p = some c' ∧ P c') :
    ∀ (l : List β) (c : σ), P c → ∃ c', List.foldlM f c l = some c' ∧ P c' := by
  intro l
  induction l with
  | nil =>
    intro c hP
    exact ⟨c, by simp [List.foldlM_nil, pure], hP⟩
  | cons p ps ih =>
    intro c hP
    obtain ⟨c2, hc2, hP2⟩ := hf c p hP
    obtain ⟨c3, hc3, hP3⟩ := ih c2 hP2
    exact ⟨c3, by rw [List.foldlM_cons, hc2]; simpa using hc3, hP3⟩

/-- The function `get_depends` only ever adds cache entries: an entry present on call is
present and unchanged in the resulting cache (each recursion frame writes only
the key it itself registered, which was absent on entry). -/
theorem getDepends_mono {α : Type} [DecidableEq α] :
    ∀ (fuel : Nat) (mf : α → List α) (n : α) (c : DCache α) (r : List α) (c' : DCache α),
      getDepends fuel mf n c = some (r, c') → ∀ k v, c k = some v → c' k = some v := by
  intro fuel
  induction fuel with
  | zero => intro mf n c r c' heq; exact absurd heq (by simp [getDepends])
  | succ f ih =>
    intro mf n c r c' heq k v hk
    rw [getDepends] at heq
    cases hcn : c n with
    | some w =>
      rw [hcn] at heq
      simp only [Option.some.injEq, Prod.mk.injEq] at heq
      rw [← heq.2]; exact hk
    | none =>
      rw [hcn] at heq
      simp only at heq
      cases hfold : List.foldlM
          (fun c2 p =>
            match getDepends f mf p c2 with
            | none => none
            | some rc =>
              some (Function.update rc.2 n (some (supd (getE rc.2 n) rc.1))))
          (Function.update c n (some ([] : List α))) (mf n) with
      | none => rw [hfold] at heq; exact absurd heq (by simp)
      | some cache2 =>
        rw [hfold] at heq
        simp only [Option.some.injEq, Prod.mk.injEq] at heq
        have hkn : k ≠ n := fun h => by rw [h, hcn] at hk; exact absurd hk (by simp)
        have hpres : ∀ k2 v2, c k2 = some v2 → cache2 k2 = some v2 := by
          refine foldlM_option_invariant _ (fun c2 => ∀ k2 v2, c k2 = some v2 → c2 k2 = some v2)
            ?_ (mf n) _ _ ?_ hfold
          · intro c2 p c3 hPc2 hstep
            cases hgd : getDepends f mf p c2 with
            | none => rw [hgd] at hstep; exact absurd hstep (by simp)
            | some rc =>
              rw [hgd] at hstep
              simp only [Option.some.injEq] at hstep
              intro k2 v2 hk2
              have hk2n : k2 ≠ n := fun h => by rw [h, hcn] at hk2; exact absurd hk2 (by simp)
              rw [← hstep, Function.update_noteq hk2n]
              exact ih mf p c2 rc.1 rc.2 hgd k2 v2 (hPc2 k2 v2 hk2)
          · intro k2 v2 hk2
            have hk2n : k2 ≠ n := fun h => by rw [h, hcn] at hk2; exact absurd hk2 (by simp)
            rw [Function.update_noteq hk2n]
            exact hk2
        rw [← heq.2, Function.update_noteq hkn]
        exact hpres k v hk

/-- After a successful `get_depends(name, implicit=True)` call, the cache holds
exactly the returned value under `name` (the memoization write). -/
theorem getDepends_cached {α : Type} [DecidableEq α] (fuel : Nat) (mf : α → List α)
    (n : α) (c : DCache α) (r : List α) (c' : DCache α)
    (heq : getDepends fuel mf n c = some (r, c')) : c' n = some r := by
  cases fuel with
  | zero => exact absurd heq (by simp [getDepends])
  | succ f =>
    rw [getDepends] at heq
    cases hcn : c n with
    | some w =>
      rw [hcn] at heq
      simp only [Option.some.injEq, Prod.mk.injEq] at heq
      rw [← heq.2, ← heq.1]
      exact hcn
    | none =>
      rw [hcn] at heq
      simp only at heq
      cases hfold : List.foldlM
          (fun c2 p =>
            match getDepends f mf p c2 with
            | none => none
            | some rc =>
              some (Function.update rc.2 n (some (supd (getE rc.2 n) rc.1))))
          (Function.update c n (some ([] : List α))) (mf n) with
      | none => rw [hfold] at heq; exact absurd heq (by simp)
      | some cache2 =>
        rw [hfold] at heq
        simp only [Option.some.injEq, Prod.mk.injEq] at heq
        rw [← heq.2, ← heq.1, Function.update_same]

/-- A `get_depends(name, implicit=True)` call that finds `name` uncached ends
with `s.update(names)`, so its result contains every direct dependency. -/
theorem getDepends_super {α : Type} [DecidableEq α] (fuel : Nat) (mf : α → List α)
    (n : α) (c : DCache α) (r : List α) (c' : DCache α)
    (heq : getDepends fuel mf n c = some (r, c')) (hcn : c n = none) :
    ∀ x ∈ mf n, x ∈ r := by
  cases fuel with
  | zero => exact absurd heq (by simp [getDepends])
  | succ f =>
    rw [getDepends, hcn] at heq
    simp only at heq
    cases hfold : List.foldlM
        (fun c2 p =>
          match getDepends f mf p c2 with
          | none => none
          | some rc =>
            some (Function.update rc.2 n (some (supd (getE rc.2 n) rc.1))))
        (Function.update c n (some ([] : List α))) (mf n) with
    | none => rw [hfold] at heq; exact absurd heq (by simp)
    | some cache2 =>
      rw [hfold] at heq
      simp only [Option.some.injEq, Prod.mk.injEq] at heq
      intro x hx
      rw [← heq.1]
      exact (mem_supd _ _ x).2 (Or.inr hx)

/-- The names a cache is still missing. -/
def uncached {α : Type} [DecidableEq α] [Fintype α] (c : DCache α) : Finset α :=
  Finset.univ.filter (fun x => c x = none)

/-- Termination of the memoized recursion: because each frame registers the
placeholder for its name before recursing, the set of uncached names shrinks at
every nested call, so recursion depth exceeding the number of uncached names
cannot occur.  Stated via fuel: any fuel larger than the number of uncached
names suffices for the computation to complete. -/
theorem getDepends_isSome {α : Type} [DecidableEq α] [Fintype α] :
    ∀ (fuel : Nat) (mf : α → List α) (n : α) (c : DCache α),
      (uncached c).card < fuel → ∃ rc, getDepends fuel mf n c = some rc := by
  intro fuel
  induction fuel with
  | zero => intro mf n c hlt; exact absurd hlt (by simp)
  | succ f ih =>
    intro mf n c hlt
    rw [getDepends]
    cases hcn : c n with
    | some w => exact ⟨(w, c), rfl⟩
    | none =>
      simp only
      have hmemn : n ∈ uncached c := by simp [uncached, hcn]
      have hcard1 : (uncached (Function.update c n (some ([] : List α)))).card =
          (uncached c).card - 1 := by
        have : uncached (Function.update c n (some ([] : List α))) = (uncached c).erase n := by
          ext x
          by_cases hxn : x = n
          · subst hxn; simp [uncached, Function.update_same]
          · simp [uncached, Function.update_noteq hxn, hxn]
        rw [this, Finset.card_erase_of_mem hmemn]
      have hge1 : 1 ≤ (uncached c).card := Finset.card_pos.2 ⟨n, hmemn⟩
      have hfold : ∃ cache2, List.foldlM
          (fun c2 p =>
            match getDepends f mf p c2 with
            | none => none
            | some rc =>
              some (Function.update rc.2 n (some (supd (getE rc.2 n) rc.1))))
          (Function.update c n (some ([] : List α))) (mf n) = some cache2 ∧
          (∀ k, Function.update c n (some ([] : List α)) k ≠ none → cache2 k ≠ none) := by
        refine foldlM_option_isSome _
          (fun c2 : DCache α => ∀ k, Function.update c n (some ([] : List α)) k ≠ none → c2 k ≠ none)
          ?_ (mf n) _ (fun _ h => h)
        intro c2 p hP
        have hsub : uncached c2 ⊆ uncached (Function.update c n (some ([] : List α))) := by
          intro x hx
          simp only [uncached, Finset.mem_filter, Finset.mem_univ, true_and] at hx ⊢
          by_contra hx2
          exact hP x hx2 hx
        have hlt2 : (uncached c2).card < f := by
          have := Finset.card_le_card hsub
          omega
        obtain ⟨rc, hrc⟩ := ih mf p c2 hlt2
        refine ⟨Function.update rc.2 n (some (supd (getE rc.2 n) rc.1)), by rw [hrc], ?_⟩
        intro k hk
        by_cases hkn : k = n
        · subst hkn
          rw [Function.update_same]
          simp
        · rw [Function.update_noteq hkn]
          cases hc2k : c2 k with
          | none => exact absurd hc2k (hP k hk)
          | some v =>
            rw [getDepends_mono f mf p c2 rc.1 rc.2 hrc k v hc2k]
            simp
      obtain ⟨cache2, hc2, _⟩ := hfold
      rw [hc2]
      exact ⟨_, rfl⟩

/-- The body of the `for p in names:` loop of `get_depends`, as a named
function (definitionally equal to the lambda inlined in `getDepends`). -/
def dependsStep {α : Type} [DecidableEq α] (f : Nat) (mf : α → List α) (n : α)
    (c : DCache α) (p : α) : Option (DCache α) :=
  match getDepends f mf p c with
  | none => none
  | some rc => some (Function.update rc.2 n (some (supd (getE rc.2 n) rc.1)))

/-- Unfolding equation for `getDepends` at successor fuel, phrased via
`dependsStep`. -/
theorem getDepends_succ_eq {α : Type} [DecidableEq α] (f : Nat) (mf : α → List α)
    (n : α) (c : DCache α) :
    getDepends (f + 1) mf n c =
      match c n with
      | some v => some (v, c)
      | none =>
        match List.foldlM (dependsStep f mf n)
            (Function.update c n (some ([] : List α))) (mf n) with
        | none => none
        | some cache2 =>
          some (supd (getE cache2 n) (mf n),
            Function.update cache2 n (some (supd (getE cache2 n) (mf n)))) := rfl

/-- A depends cache is good (relative to an exception set `E` of in-progress
names) when every stored entry contains at least the direct dependencies of its
key. -/
def goodE {α : Type} (mf : α → List α) (E : α → Prop) (c : DCache α) : Prop :=
  ∀ k v, c k = some v → E k ∨ ∀ x ∈ mf k, x ∈ v

/-- Every completed `get_depends` frame unions the direct dependency names into
its result before storing it, so goodness of the cache is preserved and any
result obtained outside the in-progress set contains the direct
dependencies. -/
theorem getDepends_goodE {α : Type} [DecidableEq α] (mf : α → List α) :
    ∀ (fuel : Nat) (E : α → Prop) (n : α) (c : DCache α) (r : List α) (c' : DCache α),
      goodE mf E c → getDepends fuel mf n c = some (r, c') →
      goodE mf E c' ∧ (¬ E n → ∀ x ∈ mf n, x ∈ r) := by
  intro fuel
  induction fuel with
  | zero => intro E n c r c' _ heq; exact absurd heq (by simp [getDepends])
  | succ f ih =>
    intro E n c r c' hg heq
    rw [getDepends_succ_eq] at heq
    cases hcn : c n with
    | some w =>
      rw [hcn] at heq
      simp only [Option.some.injEq, Prod.mk.injEq] at heq
      refine ⟨heq.2 ▸ hg, fun hEn x hx => ?_⟩
      rcases hg n w hcn with hE | hsub
      · exact absurd hE hEn
      · exact heq.1 ▸ hsub x hx
    | none =>
      rw [hcn] at heq
      simp only at heq
      cases hfold : List.foldlM (dependsStep f mf n)
          (Function.update c n (some ([] : List α))) (mf n) with
      | none => rw [hfold] at heq; exact absurd heq (by simp)
      | some cache2 =>
        rw [hfold] at heq
        simp only [Option.some.injEq, Prod.mk.injEq] at heq
        have hg2 : goodE mf (fun a => E a ∨ a = n) cache2 := by
          refine foldlM_option_invariant _ (goodE mf (fun a => E a ∨ a = n)) ?_ (mf n) _ _ ?_ hfold
          · intro c2 p c3 hgc2 hstep
            rw [dependsStep] at hstep
            cases hgd : getDepends f mf p c2 with
            | none => rw [hgd] at hstep; exact absurd hstep (by simp)
            | some rc =>
              rw [hgd] at hstep
              simp only [Option.some.injEq] at hstep
              have hgrc := (ih (fun a => E a ∨ a = n) p c2 rc.1 rc.2 hgc2 hgd).1
              intro k v hk
              by_cases hkn : k = n
              · subst hkn; exact Or.inl (Or.inr rfl)
              · rw [← hstep, Function.update_noteq hkn] at hk
                exact hgrc k v hk
          · intro k v hk
            by_cases hkn : k = n
            · subst hkn; exact Or.inl (Or.inr rfl)
            · rw [Function.update_noteq hkn] at hk
              rcases hg k v hk with hE | hsub
              · exact Or.inl (Or.inl hE)
              · exact Or.inr hsub
        constructor
        · intro k v hk
          by_cases hkn : k = n
          · subst hkn
            rw [← heq.2, Function.update_same] at hk
            refine Or.inr fun x hx => ?_
            simp only [Option.some.injEq] at hk
            rw [← hk]
            exact (mem_supd _ _ x).2 (Or.inr hx)
          · rw [← heq.2, Function.update_noteq hkn] at hk
            rcases hg2 k v hk with (hE | rfl) | hsub
            · exact Or.inl hE
            · exact absurd rfl hkn
            · exact Or.inr hsub
        · intro _ x hx
          rw [← heq.1]
          exact (mem_supd _ _ x).2 (Or.inr hx)

/-- Reachability along declared dependency edges in one or more steps: the
intended value of the transitive dependency closure. -/
def TGdep {α : Type} (mf : α → List α) : α → α → Prop :=
  Relation.TransGen (fun a b => b ∈ mf a)

theorem TGdep_iff {α : Type} (mf : α → List α) (n x : α) :
    TGdep mf n x ↔ x ∈ mf n ∨ ∃ p ∈ mf n, TGdep mf p x := by
  constructor
  · intro h
    induction h with
    | single hb => exact Or.inl hb
    | tail _ h2 ih =>
      rcases ih with hb | ⟨p, hp, htg⟩
      · exact Or.inr ⟨_, hb, Relation.TransGen.single h2⟩
      · exact Or.inr ⟨p, hp, Relation.TransGen.tail htg h2⟩
  · rintro (h | ⟨p, hp, htp⟩)
    · exact Relation.TransGen.single h
    · exact Relation.TransGen.head hp htp

/-- A depends cache is exact (off an exception set `E` of in-progress names)
when every stored entry equals the true dependency closure of its key. -/
def exactE {α : Type} (mf : α → List α) (E : α → Prop) (c : DCache α) : Prop :=
  ∀ k v, c k = some v → ¬ E k → ∀ x, x ∈ v ↔ TGdep mf k x

/-- On an acyclic dependency graph (witnessed by a rank function decreasing
along edges) the memoized recursion never reads an in-progress placeholder, so
`get_depends` computes the exact reachability closure and leaves only exact
entries in the cache. -/
theorem getDepends_exact {α : Type} [DecidableEq α] (mf : α → List α) (rank : α → Nat)
    (hr : ∀ a b, b ∈ mf a → rank b < rank a) :
    ∀ (fuel : Nat) (E : α → Prop) (n : α) (c : DCache α) (r : List α) (c' : DCache α),
      exactE mf E c → (∀ a, E a → rank n < rank a) →
      getDepends fuel mf n c = some (r, c') →
      exactE mf E c' ∧ ∀ x, x ∈ r ↔ TGdep mf n x := by
  intro fuel
  induction fuel with
  | zero => intro E n c r c' _ _ heq; exact absurd heq (by simp [getDepends])
  | succ f ih =>
    intro E n c r c' hex hE heq
    have hEn : ¬ E n := fun h => lt_irrefl _ (hE n h)
    rw [getDepends_succ_eq] at heq
    cases hcn : c n with
    | some w =>
      rw [hcn] at heq
      simp only [Option.some.injEq, Prod.mk.injEq] at heq
      exact ⟨heq.2 ▸ hex, fun x => heq.1 ▸ hex n w hcn hEn x⟩
    | none =>
      rw [hcn] at heq
      simp only at heq
      cases hfold : List.foldlM (dependsStep f mf n)
          (Function.update c n (some ([] : List α))) (mf n) with
      | none => rw [hfold] at heq; exact absurd heq (by simp)
      | some cache2 =>
        rw [hfold] at heq
        simp only [Option.some.injEq, Prod.mk.injEq] at heq
        have key : ∀ (l : List α), (∀ p ∈ l, p ∈ mf n) →
            ∀ (c2 : DCache α) (acc : List α) (c3 : DCache α),
              exactE mf (fun a => E a ∨ a = n) c2 → c2 n = some acc →
              List.foldlM (dependsStep f mf n) c2 l = some c3 →
              exactE mf (fun a => E a ∨ a = n) c3 ∧ ∃ acc2, c3 n = some acc2 ∧
                ∀ x, x ∈ acc2 ↔ x ∈ acc ∨ ∃ p ∈ l, TGdep mf p x := by
          intro l
          induction l with
          | nil =>
            intro _ c2 acc c3 hex2 hacc h3
            simp only [List.foldlM_nil, pure, Option.some.injEq] at h3
            subst h3
            exact ⟨hex2, acc, hacc, by simp⟩
          | cons p ps ihl =>
            intro hmem c2 acc c3 hex2 hacc h3
            rw [List.foldlM_cons] at h3
            cases hstep : dependsStep f mf n c2 p with
            | none => rw [hstep] at h3; exact absurd h3 (by simp)
            | some c2' =>
              rw [hstep] at h3
              simp only [Option.bind_eq_bind, Option.some_bind] at h3
              rw [dependsStep] at hstep
              cases hgd : getDepends f mf p c2 with
              | none => rw [hgd] at hstep; exact absurd hstep (by simp)
              | some rc =>
                rw [hgd] at hstep
                simp only [Option.some.injEq] at hstep
                have hpn : p ∈ mf n := hmem p (List.mem_cons_self p ps)
                have hrankp : rank p < rank n := hr n p hpn
                have hE' : ∀ a, (E a ∨ a = n) → rank p < rank a := by
                  rintro a (hEa | rfl)
                  · exact lt_trans hrankp (hE a hEa)
                  · exact hrankp
                have hrc := ih (fun a => E a ∨ a = n) p c2 rc.1 rc.2 hex2 hE' hgd
                have haccrc : rc.2 n = some acc :=
                  getDepends_mono f mf p c2 rc.1 rc.2 hgd n acc hacc
                have hgetE : getE rc.2 n = acc := by rw [getE, haccrc]; rfl
                rw [hgetE] at hstep
                have hex3 : exactE mf (fun a => E a ∨ a = n)
                    (Function.update rc.2 n (some (supd acc rc.1))) := by
                  intro k v hk hkE
                  have hkn : k ≠ n := fun h => hkE (Or.inr h)
                  rw [Function.update_noteq hkn] at hk
                  exact hrc.1 k v hk hkE
                have h3' : List.foldlM (dependsStep f mf n)
                    (Function.update rc.2 n (some (supd acc rc.1))) ps = some c3 := by
                  rw [hstep]; exact h3
                obtain ⟨hex4, acc2, hacc2, hm2⟩ :=
                  ihl (fun p' hp' => hmem p' (List.mem_cons_of_mem p hp'))
                    _ (supd acc rc.1) c3 hex3 (Function.update_same _ _ _) h3'
                refine ⟨hex4, acc2, hacc2, fun x => ?_⟩
                rw [hm2 x, mem_supd, hrc.2 x]
                constructor
                · rintro ((hx | hx) | ⟨p', hp', hx⟩)
                  · exact Or.inl hx
                  · exact Or.inr ⟨p, List.mem_cons_self p ps, hx⟩
                  · exact Or.inr ⟨p', List.mem_cons_of_mem p hp', hx⟩
                · rintro (hx | ⟨p', hp', hx⟩)
                  · exact Or.inl (Or.inl hx)
                  · rcases List.mem_cons.1 hp' with rfl | hp's
                    · exact Or.inl (Or.inr hx)
                    · exact Or.inr ⟨p', hp's, hx⟩
        have hex1 : exactE mf (fun a => E a ∨ a = n)
            (Function.update c n (some ([] : List α))) := by
          intro k v hk hkE
          have hkn : k ≠ n := fun h => hkE (Or.inr h)
          rw [Function.update_noteq hkn] at hk
          exact hex k v hk (fun h => hkE (Or.inl h))
        obtain ⟨hex2, acc2, hacc2, hm2⟩ :=
          key (mf n) (fun _ h => h) _ ([] : List α) cache2 hex1
            (Function.update_same _ _ _) hfold
        have hgetE2 : getE cache2 n = acc2 := by rw [getE, hacc2]; rfl
        have hrmem : ∀ x, x ∈ r ↔ TGdep mf n x := by
          intro x
          rw [← heq.1, hgetE2, mem_supd, hm2 x, TGdep_iff]
          simp only [List.not_mem_nil, false_or]
          exact or_comm
        refine ⟨?_, hrmem⟩
        intro k v hk hkE
        by_cases hkn : k = n
        · subst hkn
          rw [← heq.2, Function.update_same] at hk
          simp only [Option.some.injEq] at hk
          intro x
          rw [← hk, heq.1]
          exact hrmem x
        · rw [← heq.2, Function.update_noteq hkn] at hk
          exact hex2 k v hk (by rintro (h | h); exact hkE h; exact hkn h)

/-- Result list of a modelled `get_depends` run ( `[]` when the run failed). -/
def resOf {α : Type} (o : Option (List α × DCache α)) : List α :=
  (o.map Prod.fst).getD []

/-- Depends cache left behind by a modelled `get_depends` run. -/
def dcAfter {α : Type} (o : Option (List α × DCache α)) : DCache α :=
  (o.map Prod.snd).getD emptyDC

/-- A successful run equals `some` of its projections. -/
theorem run_eq_some {α : Type} (o : Option (List α × DCache α)) (h : o.isSome = true) :
    o = some (resOf o, dcAfter o) := by
  cases o with
  | none => simp at h
  | some rc => simp [resOf, dcAfter]

/-- Concrete mutual-cycle dependency graph: resource 0 depends on 1 and
resource 1 depends on 0. -/
def mfCyc : Fin 2 → List (Fin 2) := fun i => if i = 0 then [1] else [0]

/-- Concrete dependency-free graph, used as the externally changed manifest
data for the memoization claim. -/
def mfNil : Fin 2 → List (Fin 2) := fun _ => []

/-- Concrete acyclic chain graph: 0 depends on 1, 1 depends on 2. -/
def mfLin : Fin 3 → List (Fin 3) := fun i => if i = 0 then [1] else if i = 1 then [2] else []

/-- Rank function witnessing acyclicity of `mfLin`. -/
def rankLin : Fin 3 → Nat := fun i => 2 - i.val

/-- First call on a fresh instance for the cycle graph: `get_depends(1)`. -/
def runCyc1 : Option (List (Fin 2) × DCache (Fin 2)) := getDepends 3 mfCyc 1 emptyDC

/-- Subsequent `get_depends(0)` on the resulting instance state. -/
def runCyc0 : Option (List (Fin 2) × DCache (Fin 2)) := getDepends 3 mfCyc 0 (dcAfter runCyc1)

/-- Subsequent `get_depends(1)` on the resulting instance state. -/
def runCyc1b : Option (List (Fin 2) × DCache (Fin 2)) := getDepends 3 mfCyc 1 (dcAfter runCyc0)

/-- Fresh `get_depends(0)` on the chain graph. -/
def runLin0 : Option (List (Fin 3) × DCache (Fin 3)) := getDepends 4 mfLin 0 emptyDC

/-- Subsequent `get_depends(1)` on the chain graph instance. -/
def runLin1 : Option (List (Fin 3) × DCache (Fin 3)) := getDepends 4 mfLin 1 (dcAfter runLin0)

/-- C2, counterexample: on the mutual-cycle graph 0 ↔ 1, after the instance
has served `get_depends(1, implicit=True)` on a fresh cache, the call
`get_depends(0, implicit=True)` returns a set containing 1, yet
`get_depends(1, implicit=True)` on the same instance returns a set containing
0, which is not in the former: the union of the transitive sets of the members
of `get_depends(0, implicit=True)` adds a new name, so the claimed fixed point
fails on a cyclic graph. -/
theorem c2_counterexample :
    runCyc1.isSome = true ∧ runCyc0.isSome = true ∧ runCyc1b.isSome = true ∧
    (1 : Fin 2) ∈ resOf runCyc0 ∧ (0 : Fin 2) ∈ resOf runCyc1b ∧
    (0 : Fin 2) ∉ resOf runCyc0 := by decide

/-- C2, amended: for every resource name, the direct dependency list is a
subset of the implicit result (on any dependency graph, cyclic or not, and any
good instance state), and on every acyclic dependency graph — but not
necessarily on cyclic ones — `get_depends(n, implicit=True)` computed on a
fresh instance is a fixed point: for every member `m` of the result, a
subsequent `get_depends(m, implicit=True)` on the same instance adds no new
name. -/
theorem c2_direct_subset_and_acyclic_fixed_point {α : Type} [DecidableEq α] :
    (∀ (mf : α → List α) (fuel : Nat) (n : α) (c : DCache α) (r : List α) (c' : DCache α),
      goodE mf (fun _ => False) c →
      getDepends fuel mf n c = some (r, c') →
      ∀ x ∈ getDependsDirect mf n, x ∈ r)
    ∧
    (∀ (mf : α → List α) (rank : α → Nat), (∀ a b, b ∈ mf a → rank b < rank a) →
      ∀ (fuel : Nat) (n : α) (r : List α) (c1 : DCache α),
        getDepends fuel mf n emptyDC = some (r, c1) →
        ∀ m ∈ r, ∀ (fuel2 : Nat) (rm : List α) (c2 : DCache α),
          getDepends fuel2 mf m c1 = some (rm, c2) → ∀ x ∈ rm, x ∈ r) := by
  constructor
  · intro mf fuel n c r c' hg heq x hx
    exact (getDepends_goodE mf fuel (fun _ => False) n c r c' hg heq).2 not_false x hx
  · intro mf rank hacyc fuel n r c1 h1 m hm fuel2 rm c2 h2 x hx
    have hex0 : exactE mf (fun _ => False) (emptyDC (α := α)) := by
      intro k v hk; exact absurd hk (by simp [emptyDC])
    have hfirst := getDepends_exact mf rank hacyc fuel (fun _ => False) n emptyDC r c1
      hex0 (fun a ha => absurd ha not_false) h1
    have hsecond := getDepends_exact mf rank hacyc fuel2 (fun _ => False) m c1 rm c2
      hfirst.1 (fun a ha => absurd ha not_false) h2
    have htm : TGdep mf n m := (hfirst.2 m).1 hm
    have htx : TGdep mf m x := (hsecond.2 x).1 hx
    exact (hfirst.2 x).2 (Relation.TransGen.trans htm htx)

/-- C2, witness: both parts of the amended theorem applied to concrete graphs:
the cycle graph for the subset part and the acyclic chain for the fixed-point
part. -/
theorem c2_direct_subset_and_acyclic_fixed_point_witness :
    (∀ x ∈ getDependsDirect mfCyc 1, x ∈ resOf runCyc1) ∧
    (∀ x ∈ resOf runLin1, x ∈ resOf runLin0) := by
  constructor
  · exact c2_direct_subset_and_acyclic_fixed_point.1 mfCyc 3 1 emptyDC
      (resOf runCyc1) (dcAfter runCyc1)
      (fun k v hk => absurd hk (by simp [emptyDC]))
      (run_eq_some runCyc1 (by decide))
  · exact c2_direct_subset_and_acyclic_fixed_point.2 mfLin rankLin (by decide)
      4 0 (resOf runLin0) (dcAfter runLin0) (run_eq_some runLin0 (by decide)) 1 (by decide)
      4 (resOf runLin1) (dcAfter runLin1) (run_eq_some runLin1 (by decide))

/-- C3: on a dependency graph with a mutual cycle between `p1` and `p2`, the
implicit `get_depends(p1)` computation terminates whenever the fuel exceeds the
number of resource names (the recursion is bounded because the placeholder is
registered before recursing), and its result contains at least `p2`. -/
theorem c3_cycle_terminates {α : Type} [DecidableEq α] [Fintype α]
    (mf : α → List α) (p1 p2 : α) (h12 : p2 ∈ mf p1) (_h21 : p1 ∈ mf p2)
    (fuel : Nat) (hfuel : Fintype.card α < fuel) :
    ∃ r c', getDepends fuel mf p1 emptyDC = some (r, c') ∧ p2 ∈ r := by
  have huc : (uncached (emptyDC (α := α))).card = Fintype.card α := by
    simp [uncached, emptyDC]
  obtain ⟨⟨r, c'⟩, hrc⟩ := getDepends_isSome fuel mf p1 emptyDC (by rw [huc]; exact hfuel)
  exact ⟨r, c', hrc, getDepends_super fuel mf p1 emptyDC r c' hrc rfl p2 h12⟩

/-- C3, witness: the concrete two-package mutual cycle terminates with fuel 3
and the result of `get_depends(0)` contains package 1. -/
theorem c3_cycle_terminates_witness :
    (1 : Fin 2) ∈ mfCyc 0 ∧ (0 : Fin 2) ∈ mfCyc 1 ∧ Fintype.card (Fin 2) < 3 ∧
    ∃ r c', getDepends 3 mfCyc 0 emptyDC = some (r, c') ∧ (1 : Fin 2) ∈ r :=
  ⟨by decide, by decide, by decide,
    c3_cycle_terminates mfCyc 0 1 (by decide) (by decide) 3 (by decide)⟩

/-- C9: once `get_depends(n, implicit=True)` has completed on an instance, a
second implicit call for `n` on the resulting instance state is served from
`self._depends_cache` and returns exactly the first result without touching
the (possibly externally changed) manifest data `mf2`. -/
theorem c9_get_depends_memoized {α : Type} [DecidableEq α]
    (fuel : Nat) (mf : α → List α) (n : α) (c : DCache α) (r : List α) (c' : DCache α)
    (heq : getDepends fuel mf n c = some (r, c'))
    (fuel2 : Nat) (mf2 : α → List α) (hf2 : 0 < fuel2) :
    getDepends fuel2 mf2 n c' = some (r, c') := by
  have hc := getDepends_cached fuel mf n c r c' heq
  cases fuel2 with
  | zero => exact absurd hf2 (by simp)
  | succ f2 => rw [getDepends_succ_eq, hc]

/-- Fresh `get_depends(0)` on the cycle graph. -/
def runCyc0f : Option (List (Fin 2) × DCache (Fin 2)) := getDepends 3 mfCyc 0 emptyDC

/-- C9, witness: after computing the closure of 0 on the cycle graph, a second
call with completely different manifest data returns the identical result and
leaves the cache unchanged. -/
theorem c9_get_depends_memoized_witness :
    getDepends 1 mfNil 0 (dcAfter runCyc0f) = some (resOf runCyc0f, dcAfter runCyc0f) :=
  c9_get_depends_memoized 3 mfCyc 0 emptyDC (resOf runCyc0f) (dcAfter runCyc0f)
    (run_eq_some runCyc0f (by decide)) 1 mfNil (by decide)

/-- The per-instance rosdeps cache `self._rosdeps_cache`: package name to the
stored list of secondary-dependency (rosdep) names. -/
abbrev RCache (α β : Type) := α → Option (List β)

/-- The rosdeps cache of a freshly constructed instance. -/
def emptyRC {α β : Type} : RCache α β := fun _ => none

/-- Model of `RosPack.get_rosdeps(package, implicit=False)`: the secondary-dependency
names listed directly in the package manifest (`[d.name for d in m.rosdeps]`);
`rd` maps each package name to that list. -/
def getRosdepsDirect {α β : Type} (rd : α → List β) (package : α) : List β := rd package

/-- Model of `RosPack._implicit_rosdeps(package)`, the body of
`get_rosdeps(package, implicit=True)`: serve from `self._rosdeps_cache` when
present; otherwise register the empty placeholder, compute
`get_depends(package, implicit=True)`, union the *direct* rosdeps of every
returned package (`self.get_rosdeps(p, implicit=False)`), union the direct
rosdeps of `package` itself, and store and return the result.  The depends
cache and rosdeps cache are threaded explicitly. -/
def implicitRosdeps {α β : Type} [DecidableEq α] [DecidableEq β]
    (fuel : Nat) (mf : α → List α) (rd : α → List β) (package : α)
    (dc : DCache α) (rc : RCache α β) :
    Option (List β × DCache α × RCache α β) :=
  match rc package with
  | some v => some (v, dc, rc)
  | none =>
    let rc1 := Function.update rc package (some ([] : List β))
    match getDepends fuel mf package dc with
    | none => none
    | some pdc =>
      let s := pdc.1.foldl (fun acc p => supd acc (rd p)) ([] : List β)
      let s2 := supd s (rd package)
      some (s2, pdc.2, Function.update rc1 package (some s2))

theorem mem_foldl_supd {α β : Type} [DecidableEq β] (rd : α → List β) :
    ∀ (l : List α) (acc : List β) (x : β),
      x ∈ l.foldl (fun ac2 p => supd ac2 (rd p)) acc ↔ x ∈ acc ∨ ∃ p ∈ l, x ∈ rd p := by
  intro l
  induction l with
  | nil => intro acc x; simp
  | cons p ps ih =>
    intro acc x
    rw [List.foldl_cons, ih, mem_supd]
    constructor
    · rintro ((hx | hx) | ⟨p', hp', hx⟩)
      · exact Or.inl hx
      · exact Or.inr ⟨p, List.mem_cons_self p ps, hx⟩
      · exact Or.inr ⟨p', List.mem_cons_of_mem p hp', hx⟩
    · rintro (hx | ⟨p', hp', hx⟩)
      · exact Or.inl (Or.inl hx)
      · rcases List.mem_cons.1 hp' with rfl | hp's
        · exact Or.inl (Or.inr hx)
        · exact Or.inr ⟨p', hp's, hx⟩

/-- C7: for a package whose rosdeps closure is not yet cached,
`get_rosdeps(package, implicit=True)` returns exactly the union of the direct
rosdeps of the package and the direct rosdeps of every member of
`get_depends(package, implicit=True)` — no transitive rosdep expansion beyond
that union. -/
theorem c7_implicit_rosdeps_union {α β : Type} [DecidableEq α] [DecidableEq β]
    (fuel : Nat) (mf : α → List α) (rd : α → List β) (package : α)
    (dc : DCache α) (rc : RCache α β) (hrc : rc package = none)
    (packages : List α) (dc1 : DCache α)
    (hdep : getDepends fuel mf package dc = some (packages, dc1)) :
    ∃ res rc', implicitRosdeps fuel mf rd package dc rc = some (res, dc1, rc') ∧
      ∀ x, x ∈ res ↔
        x ∈ getRosdepsDirect rd package ∨ ∃ m ∈ packages, x ∈ getRosdepsDirect rd m := by
  rw [implicitRosdeps, hrc, hdep]
  refine ⟨_, _, rfl, fun x => ?_⟩
  rw [mem_supd, mem_foldl_supd]
  simp only [List.not_mem_nil, false_or, getRosdepsDirect]
  exact or_comm

/-- Concrete direct rosdeps for the witness: package `i` needs the external
name `10 * i`. -/
def rdLin : Fin 3 → List Nat := fun i => [10 * i.val]

/-- C7, witness: concrete evaluation on the chain graph with fresh caches. -/
theorem c7_implicit_rosdeps_union_witness :
    ∃ res rc', implicitRosdeps 4 mfLin rdLin 0 emptyDC emptyRC =
        some (res, dcAfter runLin0, rc') ∧
      ∀ x, x ∈ res ↔
        x ∈ getRosdepsDirect rdLin 0 ∨ ∃ m ∈ resOf runLin0, x ∈ getRosdepsDirect rdLin m :=
  c7_implicit_rosdeps_union 4 mfLin rdLin 0 emptyDC emptyRC rfl
    (resOf runLin0) (dcAfter runLin0) (run_eq_some runLin0 (by decide))

/-- Model of `os.path.basename` on a POSIX path string: the part after the last
slash. -/
def basenameL (cs : Str) : Str :=
  (cs.reverse.takeWhile (fun c => ¬ c = '/')).reverse

/-- Model of `os.path.dirname` on a POSIX path string: keep everything up to and
including the last slash, then strip trailing slashes unless the head consists
only of slashes (or is empty). -/
def dirnameL (cs : Str) : Str :=
  let head := (cs.reverse.dropWhile (fun c => ¬ c = '/')).reverse
  if head.all (fun c => c = '/') then head
  else (head.reverse.dropWhile (fun c => c = '/')).reverse

theorem dropWhile_self_or_lt {γ : Type} (p : γ → Bool) (l : List γ) :
    l.dropWhile p = l ∨ (l.dropWhile p).length < l.length := by
  cases l with
  | nil => exact Or.inl rfl
  | cons x xs =>
    by_cases hx : p x = true
    · right
      rw [List.dropWhile_cons_of_pos hx]
      have := (List.dropWhile_sublist (l := xs) p).length_le
      simp only [List.length_cons]
      omega
    · left
      rw [List.dropWhile_cons_of_neg (by simpa using hx)]

theorem dirnameL_length_lt (cs : Str) (hne : ¬ dirnameL cs = cs) :
    (dirnameL cs).length < cs.length := by
  simp only [dirnameL, List.reverse_reverse] at hne ⊢
  have hA := dropWhile_self_or_lt (fun c => decide (¬ c = '/')) cs.reverse
  have hB := dropWhile_self_or_lt (fun c => decide (c = '/'))
    (cs.reverse.dropWhile (fun c => ¬ c = '/'))
  have hAlen : (cs.reverse.dropWhile (fun c => ¬ c = '/')).length ≤ cs.length := by
    have := (List.dropWhile_sublist (l := cs.reverse)
      (fun c => decide (¬ c = '/'))).length_le
    simpa using this
  by_cases hall : ((cs.reverse.dropWhile (fun c => ¬ c = '/')).reverse).all
      (fun c => c = '/') = true
  · rw [if_pos hall] at hne ⊢
    rw [List.length_reverse]
    rcases hA with h | h
    · exact absurd (by rw [h, List.reverse_reverse]) hne
    · rw [List.length_reverse] at h; exact h
  · rw [if_neg hall] at hne ⊢
    rw [List.length_reverse]
    rcases hB with h | h
    · rw [h] at hne ⊢
      rcases hA with h2 | h2
      · exact absurd (by rw [h2, List.reverse_reverse]) hne
      · rw [List.length_reverse] at h2; exact h2
    · exact lt_of_lt_of_le h hAlen

/-- Model of `os.path.join(a, b)` for a relative second component `b`. -/
def pjoin (a b : Str) : Str :=
  if a = [] then b else if a.getLast? = some '/' then a ++ b else a ++ '/' :: b

/-- The package marker filename `MANIFEST_FILE` from the common module of the
package (its exact value is immaterial to the claims; only identity
comparisons against it occur). -/
def MANIFEST_FILE : Str := "manifest.xml".data

/-- The stack marker filename `STACK_FILE` from the common module of the
package. -/
def STACK_FILE : Str := "stack.xml".data

/-- Model of `ManifestManager.get_path` on a built location cache: raise
`ResourceNotFound` when the name is absent from the index, else return the
stored path. -/
def get_path (cache : Str → Option Str) (name : Str) : Except Str Str :=
  match cache name with
  | none => Except.error (("ResourceNotFound: ").data ++ name)
  | some p => Except.ok p

/-- The parent-walking loop of `RosPack.stack_of`: while `d` is nonempty and
`os.path.dirname(d) != d`, check for the stack marker file in `d` and either
return `basename(d)` or move to the parent; falling out of the loop yields
`None`.  `fsEx` models `os.path.exists`. -/
def stackWalk (fsEx : Str → Bool) (d : Str) : Option Str :=
  if h : ¬ d = [] ∧ ¬ dirnameL d = d then
    if fsEx (pjoin d STACK_FILE) then some (basenameL d)
    else stackWalk fsEx (dirnameL d)
  else none
termination_by d.length
decreasing_by exact dirnameL_length_lt d h.2

/-- The chain of directories inspected by the `stack_of` loop, outermost
first. -/
def dirChain (d : Str) : List Str :=
  if h : ¬ d = [] ∧ ¬ dirnameL d = d then d :: dirChain (dirnameL d) else []
termination_by d.length
decreasing_by exact dirnameL_length_lt d h.2

/-- Model of `RosPack.stack_of(package)`: resolve the package directory through the
index (raising `ResourceNotFound` when the package cannot be located), then
walk parent directories looking for the stack marker. -/
def stack_of (cache : Str → Option Str) (fsEx : Str → Bool) (package : Str) :
    Except Str (Option Str) :=
  match get_path cache package with
  | Except.error e => Except.error e
  | Except.ok d => Except.ok (stackWalk fsEx d)

theorem stackWalk_eq_none (fsEx : Str → Bool) :
    ∀ (n : Nat) (d : Str), d.length ≤ n →
      (∀ p ∈ dirChain d, fsEx (pjoin p STACK_FILE) = false) →
      stackWalk fsEx d = none := by
  intro n
  induction n with
  | zero =>
    intro d hlen _
    have hd : d = [] := List.length_eq_zero.mp (Nat.le_zero.mp hlen)
    rw [stackWalk, dif_neg (by simp [hd])]
  | succ m ih =>
    intro d hlen hmark
    rw [stackWalk]
    by_cases hc : ¬ d = [] ∧ ¬ dirnameL d = d
    · rw [dif_pos hc]
      have hd : d ∈ dirChain d := by
        rw [dirChain, dif_pos hc]; exact List.mem_cons_self _ _
      rw [hmark d hd]
      simp only [Bool.false_eq_true, if_false]
      refine ih (dirnameL d) ?_ ?_
      · have := dirnameL_length_lt d hc.2; omega
      · intro p hp
        refine hmark p ?_
        rw [dirChain, dif_pos hc]
        exact List.mem_cons_of_mem _ hp
    · rw [dif_neg hc]

/-- C10: `stack_of(package)` returns `None` (and no error) for every package
present in the index none of whose ancestor directories contains the stack
marker file; an error (`ResourceNotFound`) occurs exactly when the package
itself cannot be located in the index. -/
theorem c10_stack_of_no_stack (cache : Str → Option Str) (fsEx : Str → Bool)
    (package : Str) :
    (∀ d, cache package = some d →
      (∀ p ∈ dirChain d, fsEx (pjoin p STACK_FILE) = false) →
      stack_of cache fsEx package = Except.ok none)
    ∧ ((∃ e, stack_of cache fsEx package = Except.error e) ↔ cache package = none) := by
  constructor
  · intro d hd hmark
    rw [stack_of, get_path, hd]
    simp only
    rw [stackWalk_eq_none fsEx d.length d le_rfl hmark]
  · cases hp : cache package with
    | none =>
      exact ⟨fun _ => rfl, fun _ => ⟨_, by rw [stack_of, get_path, hp]⟩⟩
    | some d =>
      refine ⟨fun he2 => ?_, fun h => absurd h (by simp)⟩
      obtain ⟨e, he⟩ := he2
      rw [stack_of, get_path, hp] at he
      exact absurd he (by simp)

/-- Package directory used in the C10 witness. -/
def pkgPathW : Str := "/r/ws/pkg".data

/-- Location cache used in the C10 witness: one package, no stacks on disk. -/
def cacheW : Str → Option Str := fun n => if n = ("pkg").data then some pkgPathW else none

/-- C10, witness: the concrete package with no stack marker anywhere resolves
to no stack without error, and an unknown name errors. -/
theorem c10_stack_of_no_stack_witness :
    stack_of cacheW (fun _ => false) (("pkg").data) = Except.ok none ∧
    ((∃ e, stack_of cacheW (fun _ => false) (("ghost").data) = Except.error e) ↔
      cacheW (("ghost").data) = none) :=
  ⟨(c10_stack_of_no_stack cacheW (fun _ => false) (("pkg").data)).1 pkgPathW
      (by decide) (fun p _ => rfl),
    (c10_stack_of_no_stack cacheW (fun _ => false) (("ghost").data)).2⟩

/-- A location cache (`self._location_cache`), mapping resource name to
directory path. -/
abbrev LCache := Str → Option Str

/-- The location cache as freshly initialized by `_update_location_cache`. -/
def emptyLC : LCache := fun _ => none

/-- The `#ROS_ROOT=` header prefix of a cache snapshot file. -/
def HDR_ROS_ROOT : Str := "#ROS_ROOT=".data

/-- The `#ROS_PACKAGE_PATH=` header prefix of a cache snapshot file. -/
def HDR_ROS_PACKAGE_PATH : Str := "#ROS_PACKAGE_PATH=".data

/-- The marker file `rospack_nosubdirs` that stops descent during crawling. -/
def ROSPACK_NOSUBDIRS : Str := "rospack_nosubdirs".data

/-- The line loop of `_read_rospack_cache` over `f.readlines()` output: each
raw line is chopped (`l = l[:-1]`), empty lines are skipped, lines starting
with `#` are validated as headers (returning `False` immediately on a value
mismatch, recording the validation flag on a match), and every other line is
stored into the caller-supplied cache under `os.path.basename(l)`.  At the end
the verdict is `True` only when both headers were seen and matched. -/
def readCacheLines (ros_root ros_package_path : Str) :
    List Str → Bool → Bool → LCache → Bool × LCache
  | [], rrv, rppv, cache => (rrv && rppv, cache)
  | l :: rest, rrv, rppv, cache =>
    let lc := l.dropLast
    if lc.length = 0 then readCacheLines ros_root ros_package_path rest rrv rppv cache
    else if lc.head? = some '#' then
      if HDR_ROS_ROOT.isPrefixOf lc then
        if ¬ lc.drop HDR_ROS_ROOT.length = ros_root then (false, cache)
        else readCacheLines ros_root ros_package_path rest true rppv cache
      else if HDR_ROS_PACKAGE_PATH.isPrefixOf lc then
        if ¬ lc.drop HDR_ROS_PACKAGE_PATH.length = ros_package_path then (false, cache)
        else readCacheLines ros_root ros_package_path rest rrv true cache
      else readCacheLines ros_root ros_package_path rest rrv rppv cache
    else
      readCacheLines ros_root ros_package_path rest rrv rppv
        (Function.update cache (basenameL lc) (some lc))

/-- Model of `_read_rospack_cache(cache_name, cache, ros_root, ros_package_path)`:
`cacheFile` is `none` when the on-disk snapshot does not exist, otherwise the
raw lines of the file.  Returns the validation verdict together with the
caller-supplied cache, which the line loop mutates in place. -/
def read_rospack_cache (cacheFile : Option (List Str)) (cache : LCache)
    (ros_root ros_package_path : Str) : Bool × LCache :=
  match cacheFile with
  | none => (false, cache)
  | some lines => readCacheLines ros_root ros_package_path lines false false cache

/-- A directory tree with its name, plain files and subdirectories: the
shallow embedding of the filesystem region `os.walk` traverses. -/
inductive FsTree : Type where
  | node (name : Str) (files : List Str) (subdirs : List FsTree)

/-- Directory name of a tree node. -/
def FsTree.name : FsTree → Str
  | node n _ _ => n

/-- Model of `list.remove(di)` on the `dirs` list of `os.walk`: remove the first
subdirectory whose name equals the given one (the `dirs` list Python mutates
holds the subdirectory name strings). -/
def eraseByName : List FsTree → Str → List FsTree
  | [], _ => []
  | d :: rest, nm => if d.name = nm then rest else d :: eraseByName rest nm

theorem eraseByName_sublist (ds : List FsTree) (nm : Str) :
    (eraseByName ds nm).Sublist ds := by
  induction ds with
  | nil => exact List.Sublist.refl _
  | cons d rest ih =>
    rw [eraseByName]
    by_cases hd : d.name = nm
    · rw [if_pos hd]; exact List.sublist_cons_self d rest
    · rw [if_neg hd]; exact ih.cons₂ d

theorem sublist_sizeOf_le {γ : Type} [SizeOf γ] {l₁ l₂ : List γ} (h : l₁.Sublist l₂) :
    sizeOf l₁ ≤ sizeOf l₂ := by
  induction h with
  | slnil => exact le_rfl
  | cons a _ ih => simp only [List.cons.sizeOf_spec]; omega
  | cons₂ a _ ih => simp only [List.cons.sizeOf_spec]; omega

/-- The hidden-directory removal
`[dirs.remove(di) for di in dirs if di[0] == '.']` of `list_by_path`: Python
iterates by index over the very list it mutates, so a removal shifts later
elements left and the element following a removed one is skipped.  Modelled
index-for-index. -/
def pyStep (ds : List FsTree) (i : Nat) (h : i < ds.length) : List FsTree :=
  if (ds.get ⟨i, h⟩).name.head? = some '.' then eraseByName ds (ds.get ⟨i, h⟩).name else ds

theorem pyStep_sublist (ds : List FsTree) (i : Nat) (h : i < ds.length) :
    (pyStep ds i h).Sublist ds := by
  rw [pyStep]
  split
  · exact eraseByName_sublist _ _
  · exact List.Sublist.refl _

/-- The index-driven traversal of the mutating `dirs` list (see
`pyRemoveHidden`). -/
def pyRemoveHidden (ds : List FsTree) (i : Nat) : List FsTree :=
  if h : i < ds.length then pyRemoveHidden (pyStep ds i h) (i + 1) else ds
termination_by ds.length - i
decreasing_by
  have := (pyStep_sublist ds i h).length_le
  omega

theorem pyRemoveHidden_sublist :
    ∀ (n : Nat) (ds : List FsTree) (i : Nat), ds.length - i ≤ n →
      (pyRemoveHidden ds i).Sublist ds := by
  intro n
  induction n with
  | zero =>
    intro ds i hn
    rw [pyRemoveHidden.eq_def, dif_neg (by omega)]
  | succ m ih =>
    intro ds i hn
    rw [pyRemoveHidden.eq_def]
    by_cases h : i < ds.length
    · rw [dif_pos h]
      have hsub : (pyStep ds i h).Sublist ds := pyStep_sublist ds i h
      exact (ih _ (i + 1) (by have := hsub.length_le; omega)).trans hsub
    · rw [dif_neg h]

theorem pyRemoveHidden_sizeOf_le (ds : List FsTree) (i : Nat) :
    sizeOf (pyRemoveHidden ds i) ≤ sizeOf ds :=
  sublist_sizeOf_le (pyRemoveHidden_sublist (ds.length - i) ds i le_rfl)

mutual
/-- The body of the `os.walk(path, topdown=True, followlinks=True)` loop of
`list_by_path` for one visited directory `d` holding tree `t`: record a
resource and stop descending when the target marker is present (guarded by the
per-call `resources` list), stop descending on the generic package marker or
on `rospack_nosubdirs`, and otherwise descend into the non-hidden
subdirectories in order. -/
def walkDir (mn : Str) (d : Str) (t : FsTree) (res : List Str) (cache : LCache) :
    List Str × LCache :=
  match t with
  | FsTree.node _ fs ds =>
    if mn ∈ fs then
      if basenameL d ∈ res then (res, cache)
      else (res ++ [basenameL d], Function.update cache (basenameL d) (some d))
    else if MANIFEST_FILE ∈ fs then (res, cache)
    else if ROSPACK_NOSUBDIRS ∈ fs then (res, cache)
    else walkDirs mn d (pyRemoveHidden ds 0) res cache
termination_by sizeOf t
decreasing_by
  refine Nat.lt_of_le_of_lt (pyRemoveHidden_sizeOf_le _ 0) ?_
  simp only [FsTree.node.sizeOf_spec]
  omega

/-- Visit a directory list in order, threading the `resources` list and the
cache through the recursion exactly as the depth-first `os.walk` does. -/
def walkDirs (mn : Str) (d : Str) (ts : List FsTree) (res : List Str) (cache : LCache) :
    List Str × LCache :=
  match ts with
  | [] => (res, cache)
  | c :: cs =>
    let rc := walkDir mn (pjoin d c.name) c res cache
    walkDirs mn d cs rc.1 rc.2
termination_by sizeOf ts
decreasing_by
  all_goals simp only [List.cons.sizeOf_spec]
  all_goals omega
end

/-- Model of `list_by_path(manifest_name, path, cache)`: crawl one root directory
(given as its absolute path string and tree) with a fresh per-call `resources`
list, updating the caller-supplied cache, and return the resources found. -/
def list_by_path (mn : Str) (path : Str) (t : FsTree) (cache : LCache) :
    List Str × LCache :=
  walkDir mn path t [] cache

/-- Model of `ManifestManager._update_location_cache`: an empty index when there are no
search paths; otherwise try the on-disk snapshot through
`_read_rospack_cache` against the freshly initialized cache and use it when
validated; else crawl every configured path in order with `list_by_path`,
merging into the same cache object. -/
def update_location_cache (mn : Str) (cacheFile : Option (List Str))
    (ros_root ros_package_path : Str) (roots : List (Str × FsTree)) : LCache :=
  if roots.isEmpty then emptyLC
  else
    let rc := read_rospack_cache cacheFile emptyLC ros_root ros_package_path
    if rc.1 then rc.2
    else roots.foldl (fun c pr => (list_by_path mn pr.1 pr.2 c).2) rc.2

theorem pjoin_starts (a b : Str) : a <+: pjoin a b := by
  rw [pjoin]
  by_cases ha : a = []
  · rw [if_pos ha, ha]; exact List.nil_prefix
  · rw [if_neg ha]
    by_cases hs : a.getLast? = some '/'
    · rw [if_pos hs]; exact ⟨b, rfl⟩
    · rw [if_neg hs]; exact ⟨'/' :: b, rfl⟩

/-- Everything the C1/C4/C6 arguments need to know about one `walkDir` call:
the input resources persist; cache entries are written only for names newly
added to the resources list; every newly recorded name maps to a path below
the visited directory; and the resources found do not depend on the incoming
cache contents. -/
def walkDirSpec (mn d : Str) (t : FsTree) (res : List Str) (cache : LCache) : Prop :=
  (∀ k, k ∈ res → k ∈ (walkDir mn d t res cache).1) ∧
  (∀ k, (k ∈ res ∨ k ∉ (walkDir mn d t res cache).1) →
    (walkDir mn d t res cache).2 k = cache k) ∧
  (∀ k, k ∈ (walkDir mn d t res cache).1 → k ∈ res ∨
    ∃ p, (walkDir mn d t res cache).2 k = some p ∧ d <+: p) ∧
  (∀ cache2, (walkDir mn d t res cache2).1 = (walkDir mn d t res cache).1)

/-- The same facts for the sibling traversal `walkDirs`. -/
def walkDirsSpec (mn d : Str) (ts : List FsTree) (res : List Str) (cache : LCache) : Prop :=
  (∀ k, k ∈ res → k ∈ (walkDirs mn d ts res cache).1) ∧
  (∀ k, (k ∈ res ∨ k ∉ (walkDirs mn d ts res cache).1) →
    (walkDirs mn d ts res cache).2 k = cache k) ∧
  (∀ k, k ∈ (walkDirs mn d ts res cache).1 → k ∈ res ∨
    ∃ p, (walkDirs mn d ts res cache).2 k = some p ∧ d <+: p) ∧
  (∀ cache2, (walkDirs mn d ts res cache2).1 = (walkDirs mn d ts res cache).1)

theorem walk_spec : ∀ (N : Nat),
    (∀ (mn d : Str) (t : FsTree) (res : List Str) (cache : LCache),
      sizeOf t ≤ N → walkDirSpec mn d t res cache) ∧
    (∀ (mn d : Str) (ts : List FsTree) (res : List Str) (cache : LCache),
      sizeOf ts ≤ N → walkDirsSpec mn d ts res cache) := by
  intro N
  induction N using Nat.strong_induction_on with
  | _ N ih =>
    constructor
    · intro mn d t res cache hN
      obtain ⟨nm, fs, ds⟩ := t
      have hsz : sizeOf (pyRemoveHidden ds 0) < sizeOf (FsTree.node nm fs ds) := by
        refine Nat.lt_of_le_of_lt (pyRemoveHidden_sizeOf_le _ 0) ?_
        simp only [FsTree.node.sizeOf_spec]
        omega
      by_cases h1 : mn ∈ fs
      · by_cases h2 : basenameL d ∈ res
        · refine ⟨?_, ?_, ?_, ?_⟩
          · intro k hk; rw [walkDir, if_pos h1, if_pos h2]; exact hk
          · intro k _; rw [walkDir, if_pos h1, if_pos h2]
          · intro k hk; rw [walkDir, if_pos h1, if_pos h2] at hk; exact Or.inl hk
          · intro cache2; rw [walkDir, if_pos h1, if_pos h2, walkDir, if_pos h1, if_pos h2]
        · refine ⟨?_, ?_, ?_, ?_⟩
          · intro k hk
            rw [walkDir, if_pos h1, if_neg h2]
            exact List.mem_append_left _ hk
          · intro k hk
            rw [walkDir, if_pos h1, if_neg h2]
            simp only
            have hkb : ¬ k = basenameL d := by
              rcases hk with hk | hk
              · intro he; rw [he] at hk; exact h2 hk
              · intro he
                rw [walkDir, if_pos h1, if_neg h2] at hk
                simp only at hk
                exact hk (by rw [he]; exact List.mem_append_right _ (List.mem_singleton_self _))
            exact Function.update_noteq hkb _ _
          · intro k hk
            rw [walkDir, if_pos h1, if_neg h2] at hk ⊢
            simp only at hk ⊢
            rcases List.mem_append.1 hk with hk | hk
            · exact Or.inl hk
            · rcases List.mem_singleton.1 hk with rfl
              exact Or.inr ⟨d, Function.update_same _ _ _, ⟨[], List.append_nil d⟩⟩
          · intro cache2
            rw [walkDir, if_pos h1, if_neg h2, walkDir, if_pos h1, if_neg h2]
      · by_cases h2 : MANIFEST_FILE ∈ fs
        · refine ⟨?_, ?_, ?_, ?_⟩
          · intro k hk; rw [walkDir, if_neg h1, if_pos h2]; exact hk
          · intro k _; rw [walkDir, if_neg h1, if_pos h2]
          · intro k hk; rw [walkDir, if_neg h1, if_pos h2] at hk; exact Or.inl hk
          · intro cache2; rw [walkDir, if_neg h1, if_pos h2, walkDir, if_neg h1, if_pos h2]
        · by_cases h3 : ROSPACK_NOSUBDIRS ∈ fs
          · refine ⟨?_, ?_, ?_, ?_⟩
            · intro k hk; rw [walkDir, if_neg h1, if_neg h2, if_pos h3]; exact hk
            · intro k _; rw [walkDir, if_neg h1, if_neg h2, if_pos h3]
            · intro k hk
              rw [walkDir, if_neg h1, if_neg h2, if_pos h3] at hk
              exact Or.inl hk
            · intro cache2
              rw [walkDir, if_neg h1, if_neg h2, if_pos h3,
                walkDir, if_neg h1, if_neg h2, if_pos h3]
          · have hds := (ih (sizeOf (pyRemoveHidden ds 0)) (by omega)).2
              mn d (pyRemoveHidden ds 0) res cache le_rfl
            have heq : walkDir mn d (FsTree.node nm fs ds) res cache =
                walkDirs mn d (pyRemoveHidden ds 0) res cache := by
              rw [walkDir, if_neg h1, if_neg h2, if_neg h3]
            have heq2 : ∀ cache2, walkDir mn d (FsTree.node nm fs ds) res cache2 =
                walkDirs mn d (pyRemoveHidden ds 0) res cache2 := by
              intro cache2
              rw [walkDir, if_neg h1, if_neg h2, if_neg h3]
            refine ⟨?_, ?_, ?_, ?_⟩
            · intro k hk; rw [heq]; exact hds.1 k hk
            · intro k hk; rw [heq] at hk ⊢; exact hds.2.1 k hk
            · intro k hk; rw [heq] at hk ⊢; exact hds.2.2.1 k hk
            · intro cache2; rw [heq, heq2]; exact hds.2.2.2 cache2
    · intro mn d ts res cache hN
      cases ts with
      | nil =>
        refine ⟨?_, ?_, ?_, ?_⟩
        · intro k hk; rw [walkDirs]; exact hk
        · intro k _; rw [walkDirs]
        · intro k hk; rw [walkDirs] at hk; exact Or.inl hk
        · intro cache2; rw [walkDirs, walkDirs]
      | cons c cs =>
        have hszc : sizeOf c < sizeOf (c :: cs) := by
          simp only [List.cons.sizeOf_spec]; omega
        have hszcs : sizeOf cs < sizeOf (c :: cs) := by
          simp only [List.cons.sizeOf_spec]; omega
        have hdir := fun (res2 : List Str) (cache2 : LCache) =>
          (ih (sizeOf c) (by omega)).1 mn (pjoin d c.name) c res2 cache2 le_rfl
        have hdirs := fun (res2 : List Str) (cache2 : LCache) =>
          (ih (sizeOf cs) (by omega)).2 mn d cs res2 cache2 le_rfl
        have heq : walkDirs mn d (c :: cs) res cache =
            walkDirs mn d cs (walkDir mn (pjoin d c.name) c res cache).1
              (walkDir mn (pjoin d c.name) c res cache).2 := by
          rw [walkDirs]
        have heq2 : ∀ cache2, walkDirs mn d (c :: cs) res cache2 =
            walkDirs mn d cs (walkDir mn (pjoin d c.name) c res cache2).1
              (walkDir mn (pjoin d c.name) c res cache2).2 := fun cache2 => by
          rw [walkDirs]
        refine ⟨?_, ?_, ?_, ?_⟩
        · intro k hk
          rw [heq]
          exact (hdirs _ _).1 k ((hdir res cache).1 k hk)
        · intro k hk
          rw [heq]
          rcases hk with hk | hk
          · have hk1 : k ∈ (walkDir mn (pjoin d c.name) c res cache).1 :=
              (hdir res cache).1 k hk
            rw [(hdirs _ _).2.1 k (Or.inl hk1)]
            exact (hdir res cache).2.1 k (Or.inl hk)
          · rw [heq] at hk
            have hk1 : k ∉ (walkDir mn (pjoin d c.name) c res cache).1 := by
              intro hmem
              exact hk ((hdirs _ _).1 k hmem)
            rw [(hdirs _ _).2.1 k (Or.inr hk)]
            exact (hdir res cache).2.1 k (Or.inr hk1)
        · intro k hk
          rw [heq] at hk ⊢
          rcases (hdirs _ _).2.2.1 k hk with hk1 | ⟨p, hp, hpre⟩
          · rcases (hdir res cache).2.2.1 k hk1 with hk2 | ⟨p, hp, hpre⟩
            · exact Or.inl hk2
            · refine Or.inr ⟨p, ?_, (pjoin_starts d c.name).trans hpre⟩
              rw [(hdirs _ _).2.1 k (Or.inl hk1)]
              exact hp
          · exact Or.inr ⟨p, hp, hpre⟩
        · intro cache2
          rw [heq, heq2]
          have hres : (walkDir mn (pjoin d c.name) c res cache2).1 =
              (walkDir mn (pjoin d c.name) c res cache).1 := (hdir res cache).2.2.2 cache2
          rw [hres]
          exact (hdirs _ _).2.2.2 _

theorem walkDir_spec (mn d : Str) (t : FsTree) (res : List Str) (cache : LCache) :
    walkDirSpec mn d t res cache :=
  (walk_spec (sizeOf t)).1 mn d t res cache le_rfl

theorem pyRemoveHidden_no_hidden :
    ∀ (n : Nat) (ds : List FsTree) (i : Nat), ds.length - i ≤ n →
      (∀ t ∈ ds, ¬ t.name.head? = some '.') → pyRemoveHidden ds i = ds := by
  intro n
  induction n with
  | zero => intro ds i hn _; rw [pyRemoveHidden.eq_def, dif_neg (by omega)]
  | succ m ih =>
    intro ds i hn hh
    rw [pyRemoveHidden.eq_def]
    by_cases h : i < ds.length
    · rw [dif_pos h]
      have hstep : pyStep ds i h = ds := by
        rw [pyStep, if_neg (hh _ (ds.get_mem _ h))]
      rw [hstep]
      have hlen : ds.length - (i + 1) ≤ m := by omega
      exact ih ds (i + 1) hlen hh
    · rw [dif_neg h]

theorem walkDirs_nil (mn d : Str) (res : List Str) (cache : LCache) :
    walkDirs mn d [] res cache = (res, cache) := by
  rw [walkDirs]

theorem walkDirs_cons (mn d : Str) (c : FsTree) (cs : List FsTree) (res : List Str)
    (cache : LCache) :
    walkDirs mn d (c :: cs) res cache =
      walkDirs mn d cs (walkDir mn (pjoin d c.name) c res cache).1
        (walkDir mn (pjoin d c.name) c res cache).2 := by
  rw [walkDirs]

/-- Evaluation of the crawl of a root directory holding exactly one resource
directory (named `nm`, carrying the marker file). -/
theorem eval_crawl_single (d rootnm nm : Str) (cache : LCache)
    (hnm : ¬ nm.head? = some '.') :
    list_by_path MANIFEST_FILE d
        (FsTree.node rootnm [] [FsTree.node nm [MANIFEST_FILE] []]) cache =
      ([basenameL (pjoin d nm)],
        Function.update cache (basenameL (pjoin d nm)) (some (pjoin d nm))) := by
  show walkDir MANIFEST_FILE d
      (FsTree.node rootnm [] [FsTree.node nm [MANIFEST_FILE] []]) [] cache = _
  rw [walkDir]
  rw [if_neg (List.not_mem_nil MANIFEST_FILE), if_neg (List.not_mem_nil MANIFEST_FILE),
    if_neg (List.not_mem_nil ROSPACK_NOSUBDIRS)]
  rw [pyRemoveHidden_no_hidden 1 _ 0 (by simp) ?hnh]
  case hnh =>
    intro t ht
    rcases List.mem_singleton.1 ht with rfl
    simpa [FsTree.name] using hnm
  rw [walkDirs_cons]
  simp only [FsTree.name]
  rw [walkDir]
  rw [if_pos (List.mem_singleton_self MANIFEST_FILE)]
  rw [if_neg (List.not_mem_nil (basenameL (pjoin d nm)))]
  simp only [List.nil_append]
  rw [walkDirs_nil]

/-- Evaluation of the crawl of an empty root directory. -/
theorem eval_crawl_empty (d rootnm : Str) (cache : LCache) :
    list_by_path MANIFEST_FILE d (FsTree.node rootnm [] []) cache = ([], cache) := by
  show walkDir MANIFEST_FILE d (FsTree.node rootnm [] []) [] cache = _
  rw [walkDir]
  rw [if_neg (List.not_mem_nil MANIFEST_FILE), if_neg (List.not_mem_nil MANIFEST_FILE),
    if_neg (List.not_mem_nil ROSPACK_NOSUBDIRS)]
  rw [pyRemoveHidden_no_hidden 0 [] 0 (by simp) (by intro t ht; exact absurd ht (List.not_mem_nil t))]
  rw [walkDirs_nil]

/-- First configured root of the C1 scenario: `/a`, holding `pkgX`. -/
def treeA : FsTree :=
  FsTree.node ("a").data [] [FsTree.node ("pkgX").data [MANIFEST_FILE] []]

/-- Second configured root of the C1 scenario: `/b`, also holding `pkgX`. -/
def treeB : FsTree :=
  FsTree.node ("b").data [] [FsTree.node ("pkgX").data [MANIFEST_FILE] []]

/-- With no on-disk snapshot, `_update_location_cache` just crawls every
configured path over the fresh cache. -/
theorem update_location_cache_no_file (mn rr rpp : Str) (roots : List (Str × FsTree))
    (hroots : ¬ roots = []) :
    update_location_cache mn none rr rpp roots =
      roots.foldl (fun c pr => (list_by_path mn pr.1 pr.2 c).2) emptyLC := by
  cases roots with
  | nil => exact absurd rfl hroots
  | cons r0 rs =>
    simp only [update_location_cache, read_rospack_cache, List.isEmpty_cons,
      Bool.false_eq_true, if_false]

/-- The index built by crawling `/a` then `/b` (no usable snapshot). -/
def finalC1 : LCache :=
  update_location_cache MANIFEST_FILE none (("/r").data) []
    [(("/a").data, treeA), (("/b").data, treeB)]

theorem eval_finalC1 :
    finalC1 = Function.update
      (Function.update emptyLC (("pkgX").data) (some (("/a/pkgX").data)))
      (("pkgX").data) (some (("/b/pkgX").data)) := by
  have hform : finalC1 =
      (list_by_path MANIFEST_FILE (("/b").data) treeB
        (list_by_path MANIFEST_FILE (("/a").data) treeA emptyLC).2).2 := by
    rw [show finalC1 = update_location_cache MANIFEST_FILE none (("/r").data) []
        [(("/a").data, treeA), (("/b").data, treeB)] from rfl]
    rw [update_location_cache_no_file MANIFEST_FILE (("/r").data) [] _
      (List.cons_ne_nil _ _)]
    rw [List.foldl_cons, List.foldl_cons, List.foldl_nil]
  rw [hform]
  rw [show treeA = FsTree.node ("a").data [] [FsTree.node ("pkgX").data [MANIFEST_FILE] []]
    from rfl]
  rw [show treeB = FsTree.node ("b").data [] [FsTree.node ("pkgX").data [MANIFEST_FILE] []]
    from rfl]
  rw [eval_crawl_single (("/a").data) (("a").data) (("pkgX").data) emptyLC (by decide)]
  simp only
  rw [eval_crawl_single (("/b").data) (("b").data) (("pkgX").data) _ (by decide)]
  simp only
  rw [show basenameL (pjoin (("/a").data) (("pkgX").data)) = ("pkgX").data from by decide]
  rw [show basenameL (pjoin (("/b").data) (("pkgX").data)) = ("pkgX").data from by decide]
  rw [show pjoin (("/a").data) (("pkgX").data) = ("/a/pkgX").data from by decide]
  rw [show pjoin (("/b").data) (("pkgX").data) = ("/b/pkgX").data from by decide]

/-- C1, counterexample: both roots contain a `pkgX` resource, root `/a` is
processed before root `/b`, and `get_path("pkgX")` resolves to `/b/pkgX` — the
later-processed root has overwritten the earlier one, contradicting the
claim. -/
theorem c1_counterexample :
    ("pkgX").data ∈ (list_by_path MANIFEST_FILE (("/a").data) treeA emptyLC).1 ∧
    ("pkgX").data ∈ (list_by_path MANIFEST_FILE (("/b").data) treeB emptyLC).1 ∧
    finalC1 (("pkgX").data) = some (("/b/pkgX").data) ∧
    get_path finalC1 (("pkgX").data) = Except.ok (("/b/pkgX").data) ∧
    ¬ get_path finalC1 (("pkgX").data) = Except.ok (("/a/pkgX").data) := by
  have hfin : finalC1 (("pkgX").data) = some (("/b/pkgX").data) := by
    rw [eval_finalC1, Function.update_same]
  refine ⟨?_, ?_, hfin, ?_, ?_⟩
  · rw [show treeA = FsTree.node ("a").data [] [FsTree.node ("pkgX").data [MANIFEST_FILE] []]
      from rfl]
    rw [eval_crawl_single (("/a").data) (("a").data) (("pkgX").data) emptyLC (by decide)]
    decide
  · rw [show treeB = FsTree.node ("b").data [] [FsTree.node ("pkgX").data [MANIFEST_FILE] []]
      from rfl]
    rw [eval_crawl_single (("/b").data) (("b").data) (("pkgX").data) emptyLC (by decide)]
    decide
  · rw [get_path, hfin]
  · intro hcontra
    rw [get_path, hfin] at hcontra
    simp only [Except.ok.injEq] at hcontra
    exact absurd hcontra (by decide)

/-- C1, amended: with two configured roots A (processed first) and B
(processed second) and no usable snapshot, a resource name discovered by B's
crawl ends up mapped to a directory under B's root: the later-processed root
overwrites the earlier-processed one (which is why the caller passes the paths
in reverse precedence order). -/
theorem c1_later_root_wins (mn pa pb : Str) (ta tb : FsTree) (rr rpp : Str)
    (name : Str) (hdisc : name ∈ (list_by_path mn pb tb emptyLC).1) :
    ∃ p, update_location_cache mn none rr rpp [(pa, ta), (pb, tb)] name = some p ∧
      pb <+: p := by
  have hform : update_location_cache mn none rr rpp [(pa, ta), (pb, tb)] =
      (list_by_path mn pb tb (list_by_path mn pa ta emptyLC).2).2 := by
    rw [update_location_cache_no_file mn rr rpp _ (List.cons_ne_nil _ _)]
    rw [List.foldl_cons, List.foldl_cons, List.foldl_nil]
  rw [hform]
  have hspec := walkDir_spec mn pb tb [] (list_by_path mn pa ta emptyLC).2
  have hdisc2 : name ∈ (walkDir mn pb tb [] (list_by_path mn pa ta emptyLC).2).1 := by
    have heval : (walkDir mn pb tb [] emptyLC).1 =
        (walkDir mn pb tb [] (list_by_path mn pa ta emptyLC).2).1 :=
      hspec.2.2.2 emptyLC
    exact heval ▸ hdisc
  rcases hspec.2.2.1 name hdisc2 with h | ⟨p, hp, hpre⟩
  · exact absurd h (List.not_mem_nil name)
  · exact ⟨p, hp, hpre⟩

/-- C1, witness: the amended theorem applied to the concrete two-root
scenario. -/
theorem c1_later_root_wins_witness :
    ∃ p, update_location_cache MANIFEST_FILE none (("/r").data) []
        [(("/a").data, treeA), (("/b").data, treeB)] (("pkgX").data) = some p ∧
      ("/b").data <+: p := by
  refine c1_later_root_wins MANIFEST_FILE (("/a").data) (("/b").data) treeA treeB
    (("/r").data) [] (("pkgX").data) ?_
  rw [show treeB = FsTree.node ("b").data [] [FsTree.node ("pkgX").data [MANIFEST_FILE] []]
    from rfl]
  rw [eval_crawl_single (("/b").data) (("b").data) (("pkgX").data) emptyLC (by decide)]
  decide

/-- A mismatching `#ROS_ROOT=` line anywhere in the snapshot forces the scan
verdict to `False`, from any flag state. -/
theorem readCacheLines_root_mismatch_false (rr rpp : Str) :
    ∀ (lines : List Str) (l v : Str), l ∈ lines →
      l.dropLast = HDR_ROS_ROOT ++ v → ¬ v = rr →
      ∀ (b1 b2 : Bool) (c0 : LCache),
        (readCacheLines rr rpp lines b1 b2 c0).1 = false := by
  intro lines
  induction lines with
  | nil => intro l v hl _ _ _ _ _; exact absurd hl (List.not_mem_nil l)
  | cons l0 rest ih =>
    intro l v hl hchop hv b1 b2 c0
    rcases List.mem_cons.1 hl with rfl | hl2
    · simp only [readCacheLines]
      rw [hchop]
      have hlen : ¬ (HDR_ROS_ROOT ++ v).length = 0 := by
        rw [List.length_append]
        have : HDR_ROS_ROOT.length = 10 := by decide
        omega
      rw [if_neg hlen]
      have hhead : (HDR_ROS_ROOT ++ v).head? = some '#' := by
        have : HDR_ROS_ROOT = '#' :: HDR_ROS_ROOT.tail := by decide
        rw [this]
        rfl
      rw [if_pos hhead]
      have hpre : HDR_ROS_ROOT.isPrefixOf (HDR_ROS_ROOT ++ v) = true := by
        rw [ List.isPrefixOf_iff_prefix]
        exact ⟨v, rfl⟩
      rw [if_pos hpre, List.drop_left, if_pos hv]
    · simp only [readCacheLines]
      by_cases h1 : (l0.dropLast).length = 0
      · rw [if_pos h1]; exact ih l v hl2 hchop hv b1 b2 c0
      · rw [if_neg h1]
        by_cases h2 : (l0.dropLast).head? = some '#'
        · rw [if_pos h2]
          by_cases h3 : HDR_ROS_ROOT.isPrefixOf l0.dropLast = true
          · rw [if_pos h3]
            by_cases h4 : ¬ (l0.dropLast).drop HDR_ROS_ROOT.length = rr
            · rw [if_pos h4]
            · rw [if_neg h4]; exact ih l v hl2 hchop hv true b2 c0
          · rw [if_neg h3]
            by_cases h5 : HDR_ROS_PACKAGE_PATH.isPrefixOf l0.dropLast = true
            · rw [if_pos h5]
              by_cases h6 : ¬ (l0.dropLast).drop HDR_ROS_PACKAGE_PATH.length = rpp
              · rw [if_pos h6]
              · rw [if_neg h6]; exact ih l v hl2 hchop hv b1 true c0
            · rw [if_neg h5]; exact ih l v hl2 hchop hv b1 b2 c0
        · rw [if_neg h2]
          exact ih l v hl2 hchop hv b1 b2
            (Function.update c0 (basenameL l0.dropLast) (some l0.dropLast))

/-- When the scan rejects the snapshot, `_update_location_cache` falls back to
crawling every configured path, folding over the very cache object the
rejected reader already wrote into. -/
theorem update_location_cache_fallback (mn : Str) (lines : List Str) (rr rpp : Str)
    (roots : List (Str × FsTree)) (hroots : ¬ roots = [])
    (hfail : (readCacheLines rr rpp lines false false emptyLC).1 = false) :
    update_location_cache mn (some lines) rr rpp roots =
      roots.foldl (fun c pr => (list_by_path mn pr.1 pr.2 c).2)
        (readCacheLines rr rpp lines false false emptyLC).2 := by
  cases roots with
  | nil => exact absurd rfl hroots
  | cons r0 rs =>
    simp only [update_location_cache, read_rospack_cache, List.isEmpty_cons,
      Bool.false_eq_true, if_false]
    rw [if_neg (by rw [hfail]; exact Bool.false_ne_true)]

/-- C4, amended: a snapshot whose `#ROS_ROOT=` line records a value that is
not string-equal to the configured root is reported invalid by
`_read_rospack_cache`, and the index is then built by crawling every
configured path directory — but the crawl folds over the cache mapping the
rejected reader already mutated, so data lines read before the rejection
point are not purged (see C6). -/
theorem c4_mismatched_root_rejected (rr rpp : Str) (lines : List Str) (l v : Str)
    (hl : l ∈ lines) (hchop : l.dropLast = HDR_ROS_ROOT ++ v) (hv : ¬ v = rr)
    (mn : Str) (roots : List (Str × FsTree)) (hroots : ¬ roots = []) :
    (read_rospack_cache (some lines) emptyLC rr rpp).1 = false ∧
    update_location_cache mn (some lines) rr rpp roots =
      roots.foldl (fun c pr => (list_by_path mn pr.1 pr.2 c).2)
        (read_rospack_cache (some lines) emptyLC rr rpp).2 := by
  have hrej := readCacheLines_root_mismatch_false rr rpp lines l v hl hchop hv
    false false emptyLC
  exact ⟨hrej, update_location_cache_fallback mn lines rr rpp roots hroots hrej⟩

/-- The raw lines of the C4/C6 snapshot: one data line, then a `#ROS_ROOT=`
header recording a different root. -/
def badLines : List Str := [("/x/evil\n").data, ("#ROS_ROOT=other\n").data]

/-- A configured root directory containing no resources at all. -/
def treeEmptyA : FsTree := FsTree.node ("a").data [] []

/-- The index built with the rejected snapshot and the empty root. -/
def finalC4 : LCache :=
  update_location_cache MANIFEST_FILE (some badLines) (("/r").data) []
    [(("/a").data, treeEmptyA)]

theorem eval_finalC4 :
    finalC4 = (read_rospack_cache (some badLines) emptyLC (("/r").data) []).2 := by
  have hform : finalC4 = (list_by_path MANIFEST_FILE (("/a").data) treeEmptyA
      (read_rospack_cache (some badLines) emptyLC (("/r").data) []).2).2 := by
    rw [show finalC4 = update_location_cache MANIFEST_FILE (some badLines) (("/r").data) []
        [(("/a").data, treeEmptyA)] from rfl]
    rw [update_location_cache_fallback MANIFEST_FILE badLines (("/r").data) [] _
      (List.cons_ne_nil _ _) (by decide)]
    rw [List.foldl_cons, List.foldl_nil]
    rfl
  rw [hform]
  rw [show treeEmptyA = FsTree.node ("a").data [] [] from rfl]
  rw [eval_crawl_empty]

/-- C4, counterexample: with the snapshot `badLines` (whose `#ROS_ROOT=` value
`other` differs from the configured root `/r`), the reader reports rejection,
yet the final name-to-path mapping still contains the entry `evil ↦ /x/evil`
contributed by the rejected snapshot — contradicting the claim that no such
entry survives. -/
theorem c4_counterexample :
    (read_rospack_cache (some badLines) emptyLC (("/r").data) []).1 = false ∧
    finalC4 (("evil").data) = some (("/x/evil").data) := by
  refine ⟨by decide, ?_⟩
  rw [eval_finalC4]
  decide

/-- C4, witness: the amended theorem applied to the concrete scenario. -/
theorem c4_mismatched_root_rejected_witness :
    (read_rospack_cache (some badLines) emptyLC (("/r").data) []).1 = false ∧
    update_location_cache MANIFEST_FILE (some badLines) (("/r").data) []
        [(("/a").data, treeEmptyA)] =
      [(("/a").data, treeEmptyA)].foldl
        (fun c pr => (list_by_path MANIFEST_FILE pr.1 pr.2 c).2)
        (read_rospack_cache (some badLines) emptyLC (("/r").data) []).2 :=
  c4_mismatched_root_rejected (("/r").data) [] badLines
    (("#ROS_ROOT=other\n").data) (("other").data)
    (by decide) (by decide) (by decide) MANIFEST_FILE _ (List.cons_ne_nil _ _)

/-- A scanned line on which `_read_rospack_cache` hits one of its two early
`return False` sites: the chopped line is nonempty, starts with `#`, and is a
`#ROS_ROOT=` header whose value differs from the configured root, or (not
being a `#ROS_ROOT=` header) a `#ROS_PACKAGE_PATH=` header whose value
differs from the configured package path. -/
def lineRejects (rr rpp : Str) (l : Str) : Prop :=
  ¬ (l.dropLast).length = 0 ∧ (l.dropLast).head? = some '#' ∧
    ((HDR_ROS_ROOT.isPrefixOf l.dropLast = true ∧
        ¬ (l.dropLast).drop HDR_ROS_ROOT.length = rr) ∨
      (¬ HDR_ROS_ROOT.isPrefixOf l.dropLast = true ∧
        HDR_ROS_PACKAGE_PATH.isPrefixOf l.dropLast = true ∧
        ¬ (l.dropLast).drop HDR_ROS_PACKAGE_PATH.length = rpp))

instance (rr rpp l : Str) : Decidable (lineRejects rr rpp l) := by
  unfold lineRejects
  infer_instance

/-- One step of the reader's line loop: a line either triggers the immediate
`return False` (leaving the cache exactly as already populated) or lets the
scan continue on the remaining lines, never removing a cache entry, recording
a data line under its basename, and setting a validation flag only on the
matching header line. -/
theorem readCacheLines_step (rr rpp l0 : Str) (rest : List Str) (b1 b2 : Bool) (c : LCache) :
    (lineRejects rr rpp l0 ∧ readCacheLines rr rpp (l0 :: rest) b1 b2 c = (false, c)) ∨
    (¬ lineRejects rr rpp l0 ∧ ∃ b1' b2' c2,
      readCacheLines rr rpp (l0 :: rest) b1 b2 c = readCacheLines rr rpp rest b1' b2' c2 ∧
      (∀ k, (c k).isSome = true → (c2 k).isSome = true) ∧
      (¬ (l0.dropLast).length = 0 → ¬ (l0.dropLast).head? = some '#' →
        (c2 (basenameL l0.dropLast)).isSome = true) ∧
      (b1' = true → b1 = true ∨ HDR_ROS_ROOT.isPrefixOf l0.dropLast = true) ∧
      (b2' = true → b2 = true ∨ HDR_ROS_PACKAGE_PATH.isPrefixOf l0.dropLast = true)) := by
  by_cases h1 : (l0.dropLast).length = 0
  · refine Or.inr ⟨fun hr => hr.1 h1, b1, b2, c, ?_, fun k h => h,
      fun hn _ => absurd h1 hn, fun h => Or.inl h, fun h => Or.inl h⟩
    simp only [readCacheLines]
    rw [if_pos h1]
  · by_cases h2 : (l0.dropLast).head? = some '#'
    · by_cases h3 : HDR_ROS_ROOT.isPrefixOf l0.dropLast = true
      · by_cases h4 : ¬ (l0.dropLast).drop HDR_ROS_ROOT.length = rr
        · refine Or.inl ⟨⟨h1, h2, Or.inl ⟨h3, h4⟩⟩, ?_⟩
          simp only [readCacheLines]
          rw [if_neg h1, if_pos h2, if_pos h3, if_pos h4]
        · refine Or.inr ⟨?_, true, b2, c, ?_, fun k h => h,
            fun _ hn2 => absurd h2 hn2, fun _ => Or.inr h3, fun h => Or.inl h⟩
          · intro hr
            rcases hr.2.2 with ⟨_, hv⟩ | ⟨hnp, _, _⟩
            · exact h4 hv
            · exact hnp h3
          · simp only [readCacheLines]
            rw [if_neg h1, if_pos h2, if_pos h3, if_neg h4]
      · by_cases h5 : HDR_ROS_PACKAGE_PATH.isPrefixOf l0.dropLast = true
        · by_cases h6 : ¬ (l0.dropLast).drop HDR_ROS_PACKAGE_PATH.length = rpp
          · refine Or.inl ⟨⟨h1, h2, Or.inr ⟨h3, h5, h6⟩⟩, ?_⟩
            simp only [readCacheLines]
            rw [if_neg h1, if_pos h2, if_neg h3, if_pos h5, if_pos h6]
          · refine Or.inr ⟨?_, b1, true, c, ?_, fun k h => h,
              fun _ hn2 => absurd h2 hn2, fun h => Or.inl h, fun _ => Or.inr h5⟩
            · intro hr
              rcases hr.2.2 with ⟨hp, _⟩ | ⟨_, _, hv⟩
              · exact h3 hp
              · exact h6 hv
            · simp only [readCacheLines]
              rw [if_neg h1, if_pos h2, if_neg h3, if_pos h5, if_neg h6]
        · refine Or.inr ⟨?_, b1, b2, c, ?_, fun k h => h,
            fun _ hn2 => absurd h2 hn2, fun h => Or.inl h, fun h => Or.inl h⟩
          · intro hr
            rcases hr.2.2 with ⟨hp, _⟩ | ⟨_, hp2, _⟩
            · exact h3 hp
            · exact h5 hp2
          · simp only [readCacheLines]
            rw [if_neg h1, if_pos h2, if_neg h3, if_neg h5]
    · refine Or.inr ⟨fun hr => h2 hr.2.1, b1, b2,
        Function.update c (basenameL l0.dropLast) (some l0.dropLast), ?_, ?_, ?_,
        fun h => Or.inl h, fun h => Or.inl h⟩
      · simp only [readCacheLines]
        rw [if_neg h1, if_neg h2]
      · intro k h
        by_cases hk : basenameL l0.dropLast = k
        · subst hk
          rw [Function.update_same]
          rfl
        · rw [Function.update_noteq (fun he => hk he.symm)]
          exact h
      · intro _ _
        rw [Function.update_same]
        rfl

/-- A rejecting header line (mismatching `#ROS_ROOT=` or mismatching
`#ROS_PACKAGE_PATH=`) anywhere in the snapshot forces the scan verdict to
`False`, from any flag state and cache: either an earlier line already
returned `False`, or the scan reaches this line and returns `False` there. -/
theorem readCacheLines_rejects_false (rr rpp : Str) :
    ∀ (lines : List Str) (l : Str), l ∈ lines → lineRejects rr rpp l →
      ∀ (b1 b2 : Bool) (c : LCache), (readCacheLines rr rpp lines b1 b2 c).1 = false := by
  intro lines
  induction lines with
  | nil => intro l hl; exact absurd hl (List.not_mem_nil l)
  | cons l0 rest ih =>
    intro l hl hlr b1 b2 c
    rcases readCacheLines_step rr rpp l0 rest b1 b2 c with
      ⟨_, heq⟩ | ⟨hnr, b1', b2', c2, heq, _, _, _, _⟩
    · rw [heq]
    · rw [heq]
      rcases List.mem_cons.1 hl with rfl | hl2
      · exact absurd hlr hnr
      · exact ih l hl2 hlr b1' b2' c2

/-- If no line of the snapshot carries the `#ROS_ROOT=` header prefix, the
`ros_root` validation flag can never be set, so the scan verdict is `False`:
the header line is missing entirely. -/
theorem readCacheLines_no_root_header_false (rr rpp : Str) :
    ∀ (lines : List Str),
      (∀ l ∈ lines, HDR_ROS_ROOT.isPrefixOf l.dropLast = false) →
      ∀ (b2 : Bool) (c : LCache), (readCacheLines rr rpp lines false b2 c).1 = false := by
  intro lines
  induction lines with
  | nil => intro _ b2 c; simp [readCacheLines]
  | cons l0 rest ih =>
    intro hno b2 c
    rcases readCacheLines_step rr rpp l0 rest false b2 c with
      ⟨_, heq⟩ | ⟨_, b1', b2', c2, heq, _, _, hb1, _⟩
    · rw [heq]
    · rw [heq]
      have hb1f : b1' = false := by
        cases hb1v : b1' with
        | false => rfl
        | true =>
          rcases hb1 hb1v with h | h
          · exact absurd h Bool.false_ne_true
          · rw [hno l0 (List.mem_cons_self _ _)] at h
            exact absurd h Bool.false_ne_true
      rw [hb1f]
      exact ih (fun l hl => hno l (List.mem_cons_of_mem _ hl)) b2' c2

/-- If no line of the snapshot carries the `#ROS_PACKAGE_PATH=` header prefix,
the `ros_package_path` validation flag can never be set, so the scan verdict
is `False`: that header line is missing entirely. -/
theorem readCacheLines_no_rpp_header_false (rr rpp : Str) :
    ∀ (lines : List Str),
      (∀ l ∈ lines, HDR_ROS_PACKAGE_PATH.isPrefixOf l.dropLast = false) →
      ∀ (b1 : Bool) (c : LCache), (readCacheLines rr rpp lines b1 false c).1 = false := by
  intro lines
  induction lines with
  | nil => intro _ b1 c; simp [readCacheLines]
  | cons l0 rest ih =>
    intro hno b1 c
    rcases readCacheLines_step rr rpp l0 rest b1 false c with
      ⟨_, heq⟩ | ⟨_, b1', b2', c2, heq, _, _, _, hb2⟩
    · rw [heq]
    · rw [heq]
      have hb2f : b2' = false := by
        cases hb2v : b2' with
        | false => rfl
        | true =>
          rcases hb2 hb2v with h | h
          · exact absurd h Bool.false_ne_true
          · rw [hno l0 (List.mem_cons_self _ _)] at h
            exact absurd h Bool.false_ne_true
      rw [hb2f]
      exact ih (fun l hl => hno l (List.mem_cons_of_mem _ hl)) b1' c2

/-- Scanning a leading block that contains no rejecting line — data lines
freely interleaved with empty lines, matching headers and other comment
lines — reaches the remaining lines with some flag state and a cache that
keeps every entry already present and holds every data line of the block
under its basename. -/
theorem readCacheLines_clean_lead (rr rpp : Str) :
    ∀ (pre rest : List Str) (b1 b2 : Bool) (c : LCache),
      (∀ l ∈ pre, ¬ lineRejects rr rpp l) →
      ∃ b1' b2' c',
        readCacheLines rr rpp (pre ++ rest) b1 b2 c = readCacheLines rr rpp rest b1' b2' c' ∧
        (∀ k, (c k).isSome = true → (c' k).isSome = true) ∧
        (∀ l ∈ pre, ¬ (l.dropLast).length = 0 → ¬ (l.dropLast).head? = some '#' →
          (c' (basenameL l.dropLast)).isSome = true) := by
  intro pre
  induction pre with
  | nil =>
    intro rest b1 b2 c _
    exact ⟨b1, b2, c, by rw [List.nil_append], fun k h => h,
      fun l hl => absurd hl (List.not_mem_nil l)⟩
  | cons l0 ps ih =>
    intro rest b1 b2 c hpre
    rcases readCacheLines_step rr rpp l0 (ps ++ rest) b1 b2 c with
      ⟨hr, _⟩ | ⟨_, b1', b2', c2, heq, hmono, hdata, _, _⟩
    · exact absurd hr (hpre l0 (List.mem_cons_self _ _))
    · obtain ⟨b1f, b2f, c', heq2, hmono2, hdata2⟩ :=
        ih rest b1' b2' c2 (fun l hl => hpre l (List.mem_cons_of_mem _ hl))
      refine ⟨b1f, b2f, c', ?_, fun k h => hmono2 k (hmono k h), ?_⟩
      · rw [List.cons_append, heq, heq2]
      · intro l hl hn1 hn2
        rcases List.mem_cons.1 hl with rfl | hl2
        · exact hmono2 _ (hdata hn1 hn2)
        · exact hdata2 l hl2 hn1 hn2

/-- The scan never removes a cache entry: whatever lines follow — including an
early `return False` — every entry already present survives into the
resulting cache. -/
theorem readCacheLines_isSome_mono (rr rpp : Str) :
    ∀ (lines : List Str) (b1 b2 : Bool) (c : LCache) (k : Str),
      (c k).isSome = true →
      ((readCacheLines rr rpp lines b1 b2 c).2 k).isSome = true := by
  intro lines
  induction lines with
  | nil =>
    intro b1 b2 c k h
    rw [readCacheLines]
    exact h
  | cons l0 rest ih =>
    intro b1 b2 c k h
    rcases readCacheLines_step rr rpp l0 rest b1 b2 c with
      ⟨_, heq⟩ | ⟨_, b1', b2', c2, heq, hmono, _, _, _⟩
    · rw [heq]
      exact h
    · rw [heq]
      exact ih b1' b2' c2 k (hmono k h)

/-- On an existing snapshot file, `_read_rospack_cache` is exactly the line
loop started with both validation flags unset. -/
theorem read_rospack_cache_some (lines : List Str) (c : LCache) (rr rpp : Str) :
    read_rospack_cache (some lines) c rr rpp = readCacheLines rr rpp lines false false c := rfl

/-- The final crawl never touches a name none of the configured roots
discovers. -/
theorem crawl_fold_preserves (mn : Str) :
    ∀ (roots : List (Str × FsTree)) (c : LCache) (k : Str),
      (∀ pr ∈ roots, ¬ k ∈ (list_by_path mn pr.1 pr.2 emptyLC).1) →
      (roots.foldl (fun c2 pr => (list_by_path mn pr.1 pr.2 c2).2) c) k = c k := by
  intro roots
  induction roots with
  | nil => intro c k _; rw [List.foldl_nil]
  | cons r0 rs ih =>
    intro c k hnd
    rw [List.foldl_cons]
    have hspec := walkDir_spec mn r0.1 r0.2 [] c
    have hk0 : ¬ k ∈ (walkDir mn r0.1 r0.2 [] c).1 := by
      intro hmem
      exact hnd r0 (List.mem_cons_self _ _) ((hspec.2.2.2 emptyLC).symm ▸ hmem)
    rw [ih _ k (fun pr hpr => hnd pr (List.mem_cons_of_mem _ hpr))]
    exact hspec.2.1 k (Or.inr hk0)

/-- C6: cache validation is not atomic in the caller-supplied mapping.  Take
any snapshot split as `pre ++ post` where no line of `pre` triggers the
reader's immediate rejection (so `pre` may interleave data lines with empty
lines, matching headers and other comment lines) and `pre` holds a data line
`dl`, and where the snapshot is rejected for any of the reasons the code
checks: some line carries a mismatching `#ROS_ROOT=` or `#ROS_PACKAGE_PATH=`
header, or the `#ROS_ROOT=` header line is missing entirely, or the
`#ROS_PACKAGE_PATH=` header line is missing entirely.  Then
`_read_rospack_cache` returns `False`, yet the entry for `dl` — read before
the point of rejection — stays in the caller cache; and since
`_update_location_cache` hands that live cache to the fallback crawl, which
only overwrites names it actually finds, the entry survives into the final
index whenever no configured root contains a resource of that name. -/
theorem c6_rejected_lines_survive (rr rpp : Str) (pre post : List Str) (dl : Str)
    (hdl : dl ∈ pre)
    (hdldata : ¬ (dl.dropLast).length = 0 ∧ ¬ (dl.dropLast).head? = some '#')
    (hpre : ∀ l ∈ pre, ¬ lineRejects rr rpp l)
    (hcause : (∃ l ∈ pre ++ post, lineRejects rr rpp l) ∨
      (∀ l ∈ pre ++ post, HDR_ROS_ROOT.isPrefixOf l.dropLast = false) ∨
      (∀ l ∈ pre ++ post, HDR_ROS_PACKAGE_PATH.isPrefixOf l.dropLast = false))
    (mn : Str) (roots : List (Str × FsTree)) (hroots : ¬ roots = [])
    (hnd : ∀ pr ∈ roots,
      ¬ basenameL dl.dropLast ∈ (list_by_path mn pr.1 pr.2 emptyLC).1) :
    (read_rospack_cache (some (pre ++ post)) emptyLC rr rpp).1 = false ∧
    ((read_rospack_cache (some (pre ++ post)) emptyLC rr rpp).2
      (basenameL dl.dropLast)).isSome = true ∧
    update_location_cache mn (some (pre ++ post)) rr rpp roots
        (basenameL dl.dropLast) =
      (read_rospack_cache (some (pre ++ post)) emptyLC rr rpp).2
        (basenameL dl.dropLast) ∧
    (update_location_cache mn (some (pre ++ post)) rr rpp roots
      (basenameL dl.dropLast)).isSome = true := by
  have hrej : (readCacheLines rr rpp (pre ++ post) false false emptyLC).1 = false := by
    rcases hcause with ⟨l, hl, hlr⟩ | hno | hno
    · exact readCacheLines_rejects_false rr rpp (pre ++ post) l hl hlr false false emptyLC
    · exact readCacheLines_no_root_header_false rr rpp (pre ++ post) hno false emptyLC
    · exact readCacheLines_no_rpp_header_false rr rpp (pre ++ post) hno false emptyLC
  have hsome : ((readCacheLines rr rpp (pre ++ post) false false emptyLC).2
      (basenameL dl.dropLast)).isSome = true := by
    obtain ⟨b1', b2', c', heq, _, hdata⟩ :=
      readCacheLines_clean_lead rr rpp pre post false false emptyLC hpre
    rw [heq]
    exact readCacheLines_isSome_mono rr rpp post b1' b2' c' _
      (hdata dl hdl hdldata.1 hdldata.2)
  have hsurv : update_location_cache mn (some (pre ++ post)) rr rpp roots
      (basenameL dl.dropLast) =
      (readCacheLines rr rpp (pre ++ post) false false emptyLC).2
        (basenameL dl.dropLast) := by
    rw [update_location_cache_fallback mn (pre ++ post) rr rpp roots hroots hrej]
    exact crawl_fold_preserves mn roots _ _ hnd
  refine ⟨?_, ?_, ?_, ?_⟩
  · rw [read_rospack_cache_some]
    exact hrej
  · rw [read_rospack_cache_some]
    exact hsome
  · rw [read_rospack_cache_some]
    exact hsurv
  · rw [hsurv]
    exact hsome

/-- The raw lines of the C6 snapshot: a matching `#ROS_PACKAGE_PATH=` header,
an empty line, then a data line — and no `#ROS_ROOT=` header anywhere, so the
reader rejects the snapshot after having read the data line. -/
def c6Lines : List Str := [("#ROS_PACKAGE_PATH=\n").data, ("\n").data, ("/x/evil\n").data]

/-- C6, witness: on the concrete snapshot `c6Lines` — data line interleaved
with an empty line and a matching header, rejected because its `#ROS_ROOT=`
header is missing entirely — against the empty root: the reader rejects, the
`evil` entry remains, and it survives into the final index. -/
theorem c6_rejected_lines_survive_witness :
    (read_rospack_cache (some (c6Lines ++ [])) emptyLC (("/r").data) []).1 = false ∧
    ((read_rospack_cache (some (c6Lines ++ [])) emptyLC (("/r").data) []).2
      (basenameL (("/x/evil\n").data).dropLast)).isSome = true ∧
    update_location_cache MANIFEST_FILE (some (c6Lines ++ [])) (("/r").data) []
        [(("/a").data, treeEmptyA)] (basenameL (("/x/evil\n").data).dropLast) =
      (read_rospack_cache (some (c6Lines ++ [])) emptyLC (("/r").data) []).2
        (basenameL (("/x/evil\n").data).dropLast) ∧
    (update_location_cache MANIFEST_FILE (some (c6Lines ++ [])) (("/r").data) []
      [(("/a").data, treeEmptyA)] (basenameL (("/x/evil\n").data).dropLast)).isSome = true := by
  refine c6_rejected_lines_survive (("/r").data) [] c6Lines [] (("/x/evil\n").data)
    (by decide) (by decide) (by decide) (Or.inr (Or.inl (by decide)))
    MANIFEST_FILE [(("/a").data, treeEmptyA)] (List.cons_ne_nil _ _) ?_
  intro pr hpr
  rcases List.mem_singleton.1 hpr with rfl
  rw [show treeEmptyA = FsTree.node ("a").data [] [] from rfl]
  rw [eval_crawl_empty]
  exact List.not_mem_nil _

instance {ε α : Type} [DecidableEq ε] [DecidableEq α] : DecidableEq (Except ε α) :=
  fun x y =>
    match x, y with
    | Except.error e1, Except.error e2 =>
      match decEq e1 e2 with
      | isTrue h => isTrue (h ▸ rfl)
      | isFalse h => isFalse (fun hc => h (Except.error.inj hc))
    | Except.ok a1, Except.ok a2 =>
      match decEq a1 a2 with
      | isTrue h => isTrue (h ▸ rfl)
      | isFalse h => isFalse (fun hc => h (Except.ok.inj hc))
    | Except.error _, Except.ok _ => isFalse (fun hc => Except.noConfusion hc)
    | Except.ok _, Except.error _ => isFalse (fun hc => Except.noConfusion hc)

/-- Python whitespace for `str.strip()`. -/
def isPySpace (c : Char) : Bool :=
  c = ' ' ∨ c = '\t' ∨ c = '\n' ∨ c = '\r' ∨ c = '\x0b' ∨ c = '\x0c'

/-- Model of `l.strip()`. -/
def pyStrip (l : Str) : Str :=
  ((l.dropWhile isPySpace).reverse.dropWhile isPySpace).reverse

/-- Split a string at every character satisfying `p`, keeping empty segments —
the behaviour of `re.split` over a single-character alternation and of
`str.split` with a one-character separator. -/
def splitOnPred (p : Char → Bool) : Str → List Str
  | [] => [[]]
  | c :: rest =>
    if p c then [] :: splitOnPred p rest
    else
      match splitOnPred p rest with
      | [] => [[c]]
      | r :: rs => (c :: r) :: rs

/-- The `rosbuild_make_distribution` statement prefix. -/
def ROSBUILD_STMT : Str := "rosbuild_make_distribution".data

/-- The line loop of `_get_cmake_version`: for the first line whose stripped
form starts with `rosbuild_make_distribution`, split the stripped line on
parentheses; fewer than two parts raises `ValueError`, a nonempty first
argument is returned as the version, and an empty argument raises
`ValueError`.  Falling off the loop returns `None` (Python falls off the
function). -/
def cmakeLines : List Str → Except Str (Option Str)
  | [] => Except.ok none
  | l :: rest =>
    if ROSBUILD_STMT.isPrefixOf (pyStrip l) then
      let lsplit := splitOnPred (fun c => c = '(' ∨ c = ')') (pyStrip l)
      if h : lsplit.length < 2 then
        Except.error (("could not find version number in CMakeLists.txt:\n\n").data ++ l)
      else
        let version := lsplit.get ⟨1, by omega⟩
        if ¬ version = [] then Except.ok (some version)
        else Except.error (("cannot parse version number in CMakeLists.txt:\n\n").data ++ l)
    else cmakeLines rest

/-- Model of `_get_cmake_version(text)`. -/
def getCmakeVersion (text : Str) : Except Str (Option Str) :=
  cmakeLines (splitOnPred (fun c => c = '\n') text)

/-- A stack directory as `get_stack_version_by_dir` observes it: the parsed
stack manifest version field when the stack marker file is present (the
manifest parser itself is an external collaborator; a missing or `None`
version is the empty string, matching Python truthiness), and the text of
`CMakeLists.txt` when that file is present. -/
structure StackDir : Type where
  manifestVersion : Option Str
  cmake : Option Str

/-- The `CMakeLists.txt` half of `get_stack_version_by_dir`: read the file if
present and convert any `ValueError` from `_get_cmake_version` into `None`
(`except ValueError: return None`). -/
def cmakeCheck (sd : StackDir) : Except Str (Option Str) :=
  match sd.cmake with
  | some text =>
    match getCmakeVersion text with
    | Except.error _ => Except.ok none
    | Except.ok v => Except.ok v
  | none => Except.ok none

/-- Model of `get_stack_version_by_dir(stack_dir)`: prefer a truthy manifest version;
otherwise fall through to the `CMakeLists.txt` check. -/
def get_stack_version_by_dir (sd : StackDir) : Except Str (Option Str) :=
  match sd.manifestVersion with
  | some v => if ¬ v = [] then Except.ok (some v) else cmakeCheck sd
  | none => cmakeCheck sd

/-- The C5 stack: marker file present with no usable version, and a
`CMakeLists.txt` whose version-declaring statement has a syntactically empty
argument. -/
def sdC5 : StackDir := StackDir.mk (some []) (some (("rosbuild_make_distribution()").data))

/-- C5, counterexample: `_get_cmake_version` does raise on the syntactically
empty argument, but `get_stack_version_by_dir` catches every `ValueError` and
returns no version — there is no hard failure of the whole-stack query,
contradicting the claim. -/
theorem c5_counterexample :
    getCmakeVersion (("rosbuild_make_distribution()").data) =
      Except.error (("cannot parse version number in CMakeLists.txt:\n\n").data ++
        ("rosbuild_make_distribution()").data) ∧
    get_stack_version_by_dir sdC5 = Except.ok none := by
  constructor
  · decide
  · decide

theorem gsvbd_some (sd : StackDir) (v : Str) (hm : sd.manifestVersion = some v) :
    get_stack_version_by_dir sd =
      if ¬ v = [] then Except.ok (some v) else cmakeCheck sd := by
  rw [get_stack_version_by_dir, hm]

theorem gsvbd_none (sd : StackDir) (hm : sd.manifestVersion = none) :
    get_stack_version_by_dir sd = cmakeCheck sd := by
  rw [get_stack_version_by_dir, hm]

theorem cmakeCheck_none (sd : StackDir) (hcm : sd.cmake = none) :
    cmakeCheck sd = Except.ok none := by
  rw [cmakeCheck, hcm]

theorem cmakeCheck_err (sd : StackDir) (text e : Str) (hcm : sd.cmake = some text)
    (hg : getCmakeVersion text = Except.error e) : cmakeCheck sd = Except.ok none := by
  rw [cmakeCheck, hcm]
  show (match getCmakeVersion text with
    | Except.error _ => Except.ok none
    | Except.ok v => Except.ok v) = Except.ok none
  rw [hg]

theorem cmakeCheck_ok (sd : StackDir) (text : Str) (v : Option Str)
    (hcm : sd.cmake = some text) (hg : getCmakeVersion text = Except.ok v) :
    cmakeCheck sd = Except.ok v := by
  rw [cmakeCheck, hcm]
  show (match getCmakeVersion text with
    | Except.error _ => Except.ok none
    | Except.ok v => Except.ok v) = Except.ok v
  rw [hg]

/-- C5, amended: the whole-stack version query never fails hard — every
`ValueError` raised by `_get_cmake_version` (both the missing-parenthesis case
and the syntactically empty argument case) is caught and reported as "no
version"; only `_get_cmake_version` itself distinguishes the cases, and both
by raising. -/
theorem c5_version_query_never_raises (sd : StackDir) :
    (∃ v, get_stack_version_by_dir sd = Except.ok v) ∧
    (∀ text e, (∀ mv, sd.manifestVersion = some mv → mv = []) →
      sd.cmake = some text → getCmakeVersion text = Except.error e →
      get_stack_version_by_dir sd = Except.ok none) := by
  have hck : ∃ v, cmakeCheck sd = Except.ok v := by
    cases hc : sd.cmake with
    | none => exact ⟨none, cmakeCheck_none sd hc⟩
    | some text =>
      cases hg : getCmakeVersion text with
      | error e => exact ⟨none, cmakeCheck_err sd text e hc hg⟩
      | ok v2 => exact ⟨v2, cmakeCheck_ok sd text v2 hc hg⟩
  constructor
  · cases hm : sd.manifestVersion with
    | some v =>
      by_cases hv : ¬ v = []
      · exact ⟨some v, by rw [gsvbd_some sd v hm, if_pos hv]⟩
      · obtain ⟨v2, hv2⟩ := hck
        exact ⟨v2, by rw [gsvbd_some sd v hm, if_neg hv]; exact hv2⟩
    | none =>
      obtain ⟨v2, hv2⟩ := hck
      exact ⟨v2, by rw [gsvbd_none sd hm]; exact hv2⟩
  · intro text e hmv hcm hg
    cases hm : sd.manifestVersion with
    | some v =>
      have hve : v = [] := hmv v hm
      rw [gsvbd_some sd v hm, hve, if_neg (fun hc => hc rfl)]
      exact cmakeCheck_err sd text e hcm hg
    | none =>
      rw [gsvbd_none sd hm]
      exact cmakeCheck_err sd text e hcm hg

/-- C5, witness: the amended theorem applied to the concrete stack. -/
theorem c5_version_query_never_raises_witness :
    (∃ v, get_stack_version_by_dir sdC5 = Except.ok v) ∧
    get_stack_version_by_dir sdC5 = Except.ok none :=
  ⟨(c5_version_query_never_raises sdC5).1,
    (c5_version_query_never_raises sdC5).2 (("rosbuild_make_distribution()").data)
      ((("cannot parse version number in CMakeLists.txt:\n\n").data ++
        ("rosbuild_make_distribution()").data))
      (by intro mv hmv; cases hmv; rfl) rfl (by decide)⟩

/-- A Python value as far as `expand_to_packages` distinguishes values:
strings, other scalars (represented by integers), lists and tuples. -/
inductive PyVal : Type where
  | pystr (s : Str)
  | pyint (n : Int)
  | pylist (xs : List PyVal)
  | pytuple (xs : List PyVal)

/-- Python `n == s` between an arbitrary value and a string: true only for an
equal string. -/
def pyEqStr : PyVal → Str → Bool
  | PyVal.pystr t, s => t = s
  | _, _ => false

/-- The per-name loop of `expand_to_packages`: a name contained in the package
list is kept; otherwise it is treated as a stack, appending the stack packages
on success and recording the name as not found on `ResourceNotFound`.
`stackPkgs` abstracts `rosstack.packages_of` (keyed by strings — a non-string
value is never found). -/
def expandLoop (packageList : List Str) (stackPkgs : Str → Option (List Str))
    (xs : List PyVal) : List PyVal × List PyVal :=
  xs.foldl
    (fun acc n =>
      if packageList.any (pyEqStr n) then (acc.1 ++ [n], acc.2)
      else
        match (match n with | PyVal.pystr s => stackPkgs s | _ => none) with
        | some pkgs => (acc.1 ++ pkgs.map PyVal.pystr, acc.2)
        | none => (acc.1, acc.2 ++ [n]))
    ([], [])

/-- Model of `expand_to_packages(names, rospack, rosstack)`: raise `ValueError` when
`names` is neither a tuple nor a list (`type(names) not in (tuple, list)`),
then expand each name against the full package list and the stack
projection. -/
def expand_to_packages (names : PyVal) (packageList : List Str)
    (stackPkgs : Str → Option (List Str)) : Except Str (List PyVal × List PyVal) :=
  match names with
  | PyVal.pylist xs => Except.ok (expandLoop packageList stackPkgs xs)
  | PyVal.pytuple xs => Except.ok (expandLoop packageList stackPkgs xs)
  | _ => Except.error (("names must be a list of strings").data)

/-- C8, counterexample: a list containing a non-string element is not rejected
with `ValueError`; the element simply flows into the not-found output. -/
theorem c8_counterexample :
    expand_to_packages (PyVal.pylist [PyVal.pyint 42]) [] (fun _ => none) =
      Except.ok ([], [PyVal.pyint 42]) := rfl

/-- C8, amended: `expand_to_packages` raises the input-validation error
exactly when `names` is neither a list nor a tuple; the elements themselves
are never validated, so sequences containing non-string elements are
accepted. -/
theorem c8_expand_validates_container_only (names : PyVal) (packageList : List Str)
    (stackPkgs : Str → Option (List Str)) :
    (∃ e, expand_to_packages names packageList stackPkgs = Except.error e) ↔
      ((∀ xs, ¬ names = PyVal.pylist xs) ∧ (∀ xs, ¬ names = PyVal.pytuple xs)) := by
  cases names with
  | pystr s =>
    refine ⟨fun _ => ⟨fun xs h => PyVal.noConfusion h, fun xs h => PyVal.noConfusion h⟩,
      fun _ => ⟨_, rfl⟩⟩
  | pyint n =>
    refine ⟨fun _ => ⟨fun xs h => PyVal.noConfusion h, fun xs h => PyVal.noConfusion h⟩,
      fun _ => ⟨_, rfl⟩⟩
  | pylist xs =>
    refine ⟨fun he => ?_, fun hne => absurd rfl (hne.1 xs)⟩
    obtain ⟨e, he⟩ := he
    exact absurd he (by rw [expand_to_packages]; exact fun hc => Except.noConfusion hc)
  | pytuple xs =>
    refine ⟨fun he => ?_, fun hne => absurd rfl (hne.2 xs)⟩
    obtain ⟨e, he⟩ := he
    exact absurd he (by rw [expand_to_packages]; exact fun hc => Except.noConfusion hc)

/-- C8, witness: a string input (not a list or tuple) is rejected. -/
theorem c8_expand_validates_container_only_witness :
    ∃ e, expand_to_packages (PyVal.pystr (("rospy").data)) [] (fun _ => none) =
      Except.error e :=
  (c8_expand_validates_container_only (PyVal.pystr (("rospy").data)) [] (fun _ => none)).2
    ⟨fun xs h => PyVal.noConfusion h, fun xs h => PyVal.noConfusion h⟩

end Rospkg
